import Mathlib

/-!
Verification of the unified-diff parsing, filtering and bounded-rendering
engine of the `agent-stuff` repository (the `parseUnifiedDiff`,
`filterDiffFiles`, `hunkLinkTarget`, `formatDiffOutput` family of functions
in the assisted-review extension).

The TypeScript source is shallowly embedded: JS strings become Lean
`String`s, JS string operations are modelled by executable functions over
the underlying character lists, JS numbers used as line counters become
`Nat`, and the two regular expressions used by the parser are modelled by
explicit matching functions with the exact lazy/greedy semantics of the
patterns involved.  The JS `RegExp` engine used by the grep filter is an
external collaborator (`new RegExp` / `RegExp.test`); it is abstracted as a
`RegexEngine` value whose single law states the standard fact that a
pattern with every special character backslash-escaped matches exactly the
literal substring.  The `node:crypto` SHA-256 used for GitHub anchors is
likewise external and is passed in as an opaque `hashHex` function; no
claim depends on its output.
-/

namespace AgentDiff

/-! ## JS string primitives, modelled over the character list -/

/-- Model of JS `String.prototype.startsWith`. -/
def jsStartsWith (s pre : String) : Bool :=
  pre.data.isPrefixOf s.data

/-- Splitting of a list of characters at every newline character, keeping
empty segments, exactly like JS `"…".split("\n")` (so `"".split` gives one
empty segment and a trailing newline yields a trailing empty segment). -/
def splitLinesList : List Char → List (List Char)
  | [] => [[]]
  | c :: cs =>
    let rest := splitLinesList cs
    if c = '\n' then [] :: rest
    else
      match rest with
      | [] => [[c]]
      | r :: rs => (c :: r) :: rs

/-- Model of JS `s.split("\n")`. -/
def splitLines (s : String) : List String :=
  (splitLinesList s.data).map String.mk

/-- Model of JS `Array.prototype.join(sep)`. -/
def jsJoin (sep : String) : List String → String
  | [] => ""
  | [x] => x
  | x :: y :: xs => x ++ sep ++ jsJoin sep (y :: xs)

/-- Number of lines of a string as counted by `text.split("\n").length` in
the renderer's `addBlock`. -/
def countLines (s : String) : Nat :=
  (splitLines s).length

/-- Model of JS `s.slice(1)` for strings (drop the first character). -/
def jsSlice1 (s : String) : String :=
  String.mk (s.data.drop 1)

/-- First-occurrence replacement over character lists; JS
`String.prototype.replace` with a plain string pattern replaces only the
first occurrence. -/
def replaceFirstList (pat rep : List Char) : List Char → List Char
  | [] => if pat = [] then rep else []
  | c :: cs =>
    if pat.isPrefixOf (c :: cs) then rep ++ (c :: cs).drop pat.length
    else c :: replaceFirstList pat rep cs

/-- Model of JS `s.replace(pat, rep)` for a plain string pattern. -/
def jsReplaceFirst (s pat rep : String) : String :=
  String.mk (replaceFirstList pat.data rep.data s.data)

/-- Characters treated as whitespace by JS `String.prototype.trim` that can
occur in diff text (the check `text.trim().length === 0`). -/
def jsIsSpace (c : Char) : Bool :=
  c == ' ' || c == '\t' || c == '\n' || c == '\r' || c == '\x0b' || c == '\x0c'

/-- Model of the JS test `text.trim().length === 0`. -/
def jsIsBlank (s : String) : Bool :=
  s.data.all jsIsSpace

/-- Model of JS `s.replace(/\/$/, "")`: strip one trailing slash. -/
def stripTrailingSlash (s : String) : String :=
  if s.data.getLast? = some '/' then String.mk s.data.dropLast else s

/-- Substring test over character lists (JS `RegExp.test` for a pattern with
every special character escaped is exactly this). -/
def isSubstrList (needle : List Char) : List Char → Bool
  | [] => needle.isEmpty
  | c :: cs => needle.isPrefixOf (c :: cs) || isSubstrList needle cs

/-- Substring test for strings. -/
def isSubstr (needle hay : String) : Bool :=
  isSubstrList needle.data hay.data

/-! ## Data model (`DiffHunk`, `DiffFile` interfaces) -/

/-- The `DiffHunk` interface of the source. -/
structure DiffHunk where
  header : String
  lines : List String
  oldStart : Nat
  newStart : Nat
deriving Repr, DecidableEq

/-- The `DiffFile` interface of the source. -/
structure DiffFile where
  path : String
  headerLines : List String
  hunks : List DiffHunk
deriving Repr, DecidableEq

/-! ## DiffParser (`parseUnifiedDiff`) -/

/-- A character matched by `.` in a JS regex without the `s` flag: any
character except a line terminator. -/
def jsDotChar (c : Char) : Bool :=
  c != '\n' && c != '\r' && c != Char.ofNat 0x2028 && c != Char.ofNat 0x2029

/-- Search for the lazy match point of `(.+?) b\/(.+)$` given the text after
`diff --git a/` with at least one group-1 character already consumed: at
each position try the literal ` b/`, and succeed when a nonempty all-dot
tail follows; otherwise move one (dot) character into group 1 and retry,
exactly as the backtracking regex engine does. -/
def gitHeaderTailSearch : List Char → Option (List Char)
  | [] => none
  | c :: rest =>
    match c, rest with
    | ' ', 'b' :: '/' :: tail =>
      if !tail.isEmpty && tail.all jsDotChar then some tail
      else gitHeaderTailSearch rest
    | _, _ => if jsDotChar c then gitHeaderTailSearch rest else none

/-- Model of the JS regex `/^diff --git a\/(.+?) b\/(.+)$/` applied to
`line`, returning capture group 2 (the `b/` destination path) when the
pattern matches. -/
def gitHeaderPath (line : String) : Option String :=
  if jsStartsWith line "diff --git a/" then
    match line.data.drop 13 with
    | [] => none
    | c :: rest => if jsDotChar c then (gitHeaderTailSearch rest).map String.mk else none
  else none

/-- Maximal-munch digit scan (`\d+` followed by a non-digit never needs to
backtrack). -/
def takeDigits : List Char → List Char × List Char
  | [] => ([], [])
  | c :: cs =>
    if c.isDigit then
      let (d, r) := takeDigits cs
      (c :: d, r)
    else ([], c :: cs)

/-- Decimal value of a digit string, as JS `Number` on a digit-only
string. -/
def digitsToNat (ds : List Char) : Nat :=
  ds.foldl (fun n c => n * 10 + (c.toNat - 48)) 0

/-- Attempt to match `@@ -(\d+)(?:,\d+)? \+(\d+)(?:,\d+)? @@` starting at
the head of `cs`, returning the two captured numbers.  After the maximal
`\d+` munch the optional `,\d+` group is taken when a comma followed by a
digit is present; no other backtracking can succeed, so this single pass is
faithful to the regex. -/
def hunkHeaderAt (cs : List Char) : Option (Nat × Nat) :=
  match cs with
  | '@' :: '@' :: ' ' :: '-' :: rest =>
    let (d1, r1) := takeDigits rest
    if d1.isEmpty then none
    else
      let r1go :=
        match r1 with
        | ',' :: r =>
          let (d, rr) := takeDigits r
          if d.isEmpty then ',' :: r else rr
        | other => other
      match r1go with
      | ' ' :: '+' :: rest2 =>
        let (d2, r2) := takeDigits rest2
        if d2.isEmpty then none
        else
          let r2go :=
            match r2 with
            | ',' :: r =>
              let (d, rr) := takeDigits r
              if d.isEmpty then ',' :: r else rr
            | other => other
          match r2go with
          | ' ' :: '@' :: '@' :: _ => some (digitsToNat d1, digitsToNat d2)
          | _ => none
      | _ => none
  | _ => none

/-- Leftmost search of the unanchored hunk-header regex over a line, as JS
`RegExp.prototype.exec` does. -/
def hunkHeaderSearch : List Char → Option (Nat × Nat)
  | [] => none
  | c :: cs =>
    match hunkHeaderAt (c :: cs) with
    | some r => some r
    | none => hunkHeaderSearch cs

/-- Path chosen for a `diff --git ` line: capture group 2 when the header
regex matches, else `line.replace("diff --git ", "")`. -/
def parsedFilePath (line : String) : String :=
  match gitHeaderPath line with
  | some p => p
  | none => jsReplaceFirst line "diff --git " ""

/-- Parser cursor: the current file under construction.  The source mutates
the last pushed hunk in place; here the open hunk is kept apart in
`curHunk` and appended to `hunks` when the next hunk or file starts, which
preserves the observable order. -/
structure CurFile where
  path : String
  headerLines : List String
  hunks : List DiffHunk
  curHunk : Option DiffHunk
deriving Repr, DecidableEq

/-- Close the open hunk (if any) into the hunk list and produce the
finished `DiffFile`. -/
def closeFile (cf : CurFile) : DiffFile :=
  { path := cf.path
    headerLines := cf.headerLines
    hunks := cf.hunks ++ (match cf.curHunk with | some h => [h] | none => []) }

/-- The line scan of `parseUnifiedDiff`. -/
def parseStep : List String → List DiffFile → Option CurFile → List DiffFile
  | [], files, cur => files ++ (match cur with | some cf => [closeFile cf] | none => [])
  | line :: rest, files, cur =>
    if jsStartsWith line "diff --git " then
      let files := files ++ (match cur with | some cf => [closeFile cf] | none => [])
      parseStep rest files
        (some { path := parsedFilePath line, headerLines := [line], hunks := [], curHunk := none })
    else
      match cur with
      | none => parseStep rest files none
      | some cf =>
        if jsStartsWith line "@@ " then
          let startPair :=
            match hunkHeaderSearch line.data with
            | some p => p
            | none => (0, 0)
          parseStep rest files
            (some { cf with
                      hunks := cf.hunks ++ (match cf.curHunk with | some h => [h] | none => [])
                      curHunk := some { header := line, lines := [line],
                                        oldStart := startPair.1, newStart := startPair.2 } })
        else
          match cf.curHunk with
          | some h =>
            parseStep rest files (some { cf with curHunk := some { h with lines := h.lines ++ [line] } })
          | none =>
            parseStep rest files (some { cf with headerLines := cf.headerLines ++ [line] })

/-- The `parseUnifiedDiff` function of the source. -/
def parseUnifiedDiff (diff : String) : List DiffFile :=
  parseStep (splitLines diff) [] none

/-! ## Grep compilation (`compileGrep`) and the abstract RegExp engine -/

/-- Is `c` one of the characters escaped by the literal fallback
`pattern.replace(/[.*+?^${}()|[\]\\]/g, "\\$&")`? -/
def isRegexSpecial (c : Char) : Bool :=
  c == '.' || c == '*' || c == '+' || c == '?' || c == '^' || c == '$' ||
  c == Char.ofNat 123 || c == Char.ofNat 125 ||
  c == '(' || c == ')' || c == '|' || c == '[' || c == ']' || c == '\\'

/-- The escape step of the fallback: prefix every special character with a
backslash. -/
def escapeRegexList : List Char → List Char
  | [] => []
  | c :: cs => if isRegexSpecial c then '\\' :: c :: escapeRegexList cs else c :: escapeRegexList cs

/-- Model of `pattern.replace(/[.*+?^${}()|[\]\\]/g, "\\$&")`. -/
def escapeRegexLiteral (p : String) : String :=
  String.mk (escapeRegexList p.data)

/-- The JS `RegExp` engine, abstracted: `compile` returns the `test`
function of `new RegExp(p)` when the pattern compiles, `none` when the
constructor throws.  The law records the standard guarantee that an
all-escaped pattern compiles and matches exactly the literal substring. -/
structure RegexEngine where
  compile : String → Option (String → Bool)
  escaped_literal :
    ∀ p : String, ∃ m, compile (escapeRegexLiteral p) = some m ∧ ∀ l, m l = isSubstr p l

/-- The `compileGrep` function of the source: empty/absent pattern gives no
grep; a pattern that fails to compile falls back to the escaped literal. -/
def compileGrep (eng : RegexEngine) (pattern : Option String) : Option (String → Bool) :=
  match pattern with
  | none => none
  | some p =>
    if p = "" then none
    else
      match eng.compile p with
      | some m => some m
      | none => eng.compile (escapeRegexLiteral p)

/-! ## DiffFilter (`filterDiffFiles`) -/

/-- The `lineRange` option (`{ start, end }`; `stop` models the JS field
`end`, which is a Lean keyword). -/
structure LineRange where
  start : Nat
  stop : Nat
deriving Repr, DecidableEq

/-- The options record of `filterDiffFiles`.  `grep` stays the raw pattern
string; it is compiled against the ambient `RegexEngine`. -/
structure FilterOptions where
  paths : Option (List String) := none
  grep : Option String := none
  grepContext : Option Nat := none
  lineRange : Option LineRange := none

/-- The walk of `sliceByRange` over a hunk's lines, carrying the running
old/new counters, the collected lines, and the `hasAny` flag. -/
def sliceLoop (lr : LineRange) :
    List String → Nat → Nat → List String → Bool → List String × Bool
  | [], _, _, acc, hasAny => (acc, hasAny)
  | line :: rest, oldLine, newLine, acc, hasAny =>
    if jsStartsWith line "@@" then sliceLoop lr rest oldLine newLine (acc ++ [line]) hasAny
    else
      let isAdded := jsStartsWith line "+" && !jsStartsWith line "+++"
      let isRemoved := jsStartsWith line "-" && !jsStartsWith line "---"
      let isContext := jsStartsWith line " "
      if isAdded then
        if lr.start ≤ newLine ∧ newLine ≤ lr.stop then
          sliceLoop lr rest oldLine (newLine + 1) (acc ++ [line]) true
        else sliceLoop lr rest oldLine (newLine + 1) acc hasAny
      else if isRemoved then sliceLoop lr rest (oldLine + 1) newLine acc hasAny
      else if isContext then
        if lr.start ≤ newLine ∧ newLine ≤ lr.stop then
          sliceLoop lr rest (oldLine + 1) (newLine + 1) (acc ++ [line]) true
        else sliceLoop lr rest (oldLine + 1) (newLine + 1) acc hasAny
      else sliceLoop lr rest oldLine newLine acc hasAny

/-- The `sliceByRange` closure of `filterDiffFiles`. -/
def sliceByRange (lineRange : Option LineRange) (hunk : DiffHunk) : Option DiffHunk :=
  match lineRange with
  | none => some hunk
  | some lr =>
    let r := sliceLoop lr hunk.lines hunk.oldStart hunk.newStart [] false
    if r.2 then some { hunk with lines := r.1 } else none

/-- The `matchLines` computation of `applyGrep`: indices of the lines the
compiled grep matches (`hunk.lines.map((line, i) => test ? i : -1).filter(≥0)`). -/
def grepMatchLines (g : String → Bool) (lines : List String) : List Nat :=
  (lines.enum.filter (fun p => g p.2)).map (fun p => p.1)

/-- The membership test of the `keep` index set of `applyGrep`: some match
index has `i` within `grepContext`, clamped to `[0, n-1]` (`Nat`
subtraction is the `Math.max(0, ·)` clamp). -/
def grepKeep (matchLines : List Nat) (ctx n i : Nat) : Bool :=
  matchLines.any (fun idx => idx - ctx ≤ i && i ≤ min (n - 1) (idx + ctx))

/-- The `applyGrep` closure of `filterDiffFiles`: `grep` is the compiled
matcher (or `none`), `grepContext` the context width. -/
def applyGrep (grep : Option (String → Bool)) (grepContext : Nat) (hunk : DiffHunk) :
    Option DiffHunk :=
  match grep with
  | none => some hunk
  | some g =>
    let matchLines := grepMatchLines g hunk.lines
    if matchLines.isEmpty then none
    else if grepContext ≤ 0 then some hunk
    else
      let n := hunk.lines.length
      let lines := (hunk.lines.enum.filter
        (fun p => grepKeep matchLines grepContext n p.1 || p.1 == 0)).map (fun p => p.2)
      some { hunk with lines := lines }

/-- Does a file pass the path filter for the given prefix list? -/
def pathMatches (ps : List String) (file : DiffFile) : Bool :=
  ps.any (fun path => file.path == path || jsStartsWith file.path (path ++ "/"))

/-- The `filterDiffFiles` function of the source. -/
def filterDiffFiles (eng : RegexEngine) (files : List DiffFile) (options : FilterOptions) :
    List DiffFile :=
  let filtered :=
    match options.paths with
    | some ps => if !ps.isEmpty then files.filter (pathMatches ps) else files
    | none => files
  let grep := compileGrep eng options.grep
  let grepContext := options.grepContext.getD 0
  let filteredFiles :=
    (filtered.map (fun file =>
      { file with
          hunks := file.hunks.filterMap (fun hunk =>
            match sliceByRange options.lineRange hunk with
            | none => none
            | some ranged => applyGrep grep grepContext ranged) })).filter
      (fun file => !file.hunks.isEmpty || !file.headerLines.isEmpty)
  match grep with
  | none => filteredFiles
  | some _ => filteredFiles.filter (fun file => !file.hunks.isEmpty)

/-! ## AnchorLinker (`hunkLinkTarget`, `buildGithubLink`) -/

/-- The diff-view side of a link target. -/
inductive DiffSide where
  | R
  | L
deriving Repr, DecidableEq

/-- Result of `hunkLinkTarget`. -/
structure LinkTarget where
  line : Nat
  side : DiffSide
deriving Repr, DecidableEq

/-- The replay loop of `hunkLinkTarget`: old/new counters plus the first
added / first removed line numbers seen so far. -/
def hunkTargetLoop :
    List String → Nat → Nat → Option Nat → Option Nat → Option Nat × Option Nat
  | [], _, _, firstAdded, firstRemoved => (firstAdded, firstRemoved)
  | line :: rest, oldLine, newLine, firstAdded, firstRemoved =>
    if jsStartsWith line "@@" then hunkTargetLoop rest oldLine newLine firstAdded firstRemoved
    else if jsStartsWith line "+" && !jsStartsWith line "+++" then
      hunkTargetLoop rest oldLine (newLine + 1)
        (match firstAdded with | none => some newLine | some a => some a) firstRemoved
    else if jsStartsWith line "-" && !jsStartsWith line "---" then
      hunkTargetLoop rest (oldLine + 1) newLine firstAdded
        (match firstRemoved with | none => some oldLine | some r => some r)
    else if jsStartsWith line " " then
      hunkTargetLoop rest (oldLine + 1) (newLine + 1) firstAdded firstRemoved
    else hunkTargetLoop rest oldLine newLine firstAdded firstRemoved

/-- The `hunkLinkTarget` function of the source. -/
def hunkLinkTarget (hunk : DiffHunk) : LinkTarget :=
  match hunkTargetLoop hunk.lines hunk.oldStart hunk.newStart none none with
  | (some a, _) => { line := a, side := .R }
  | (none, some r) => { line := r, side := .L }
  | (none, none) => { line := hunk.newStart, side := .R }

/-- Render a side letter. -/
def sideStr : DiffSide → String
  | .R => "R"
  | .L => "L"

/-- The `buildGithubLink` function; `hashHex` stands for the external
`createHash("sha256").update(path).digest("hex")`. -/
def buildGithubLink (hashHex : String → String) (prUrl path : String)
    (line : Option Nat) (side : DiffSide) : String :=
  let base := stripTrailingSlash prUrl
  let anchor := "diff-" ++ hashHex path
  match line with
  | some n =>
    if n > 0 then base ++ "/changes#" ++ anchor ++ sideStr side ++ Nat.repr n
    else base ++ "/changes#" ++ anchor
  | none => base ++ "/changes#" ++ anchor

/-! ## DiffRenderer (`formatDiffOutput` and helpers) -/

/-- The `isNewFileDiff` helper. -/
def isNewFileDiff (file : DiffFile) : Bool :=
  file.headerLines.any (fun line =>
    jsStartsWith line "--- /dev/null" || jsStartsWith line "new file mode")

/-- The inner per-line min/max scan of `computeFileLineRanges` (note the
source has no branch for removed lines: they fall through without
advancing any counter). -/
def minMaxHunkLoop : List String → Nat → Option Nat → Option Nat → Option Nat × Option Nat
  | [], _, minL, maxL => (minL, maxL)
  | line :: rest, newLine, minL, maxL =>
    if jsStartsWith line "@@" then minMaxHunkLoop rest newLine minL maxL
    else if jsStartsWith line "+" && !jsStartsWith line "+++" then
      minMaxHunkLoop rest (newLine + 1) (some (minL.getD newLine)) (some newLine)
    else if jsStartsWith line " " then
      minMaxHunkLoop rest (newLine + 1) (some (minL.getD newLine)) (some newLine)
    else minMaxHunkLoop rest newLine minL maxL

/-- The chunking loop of `computeFileLineRanges`.  The fuel argument is an
upper bound on the number of iterations whenever `chunk ≥ 1`, which is the
only way the renderer calls it (`maxLines` is a positive budget; the JS
loop would not terminate for `chunk = 0`). -/
def rangesLoop : Nat → Nat → Nat → Nat → List String
  | 0, _, _, _ => []
  | fuel + 1, start, maxL, chunk =>
    if start ≤ maxL then
      (Nat.repr start ++ "-" ++ Nat.repr (min maxL (start + chunk - 1))) ::
        rangesLoop fuel (start + chunk) maxL chunk
    else []

/-- The `computeFileLineRanges` function of the source. -/
def computeFileLineRanges (file : DiffFile) (chunkSize : Nat) : List String :=
  let mm := file.hunks.foldl
    (fun (acc : Option Nat × Option Nat) h => minMaxHunkLoop h.lines h.newStart acc.1 acc.2)
    (none, none)
  match mm with
  | (some minL, some maxL) => rangesLoop (maxL + 1 - minL) minL maxL chunkSize
  | _ => []

/-- The per-line renumbering loop building `prettyLines` for `diffText`. -/
def prettyLoop : List String → Nat → Nat → List String
  | [], _, _ => []
  | line :: rest, oldLine, newLine =>
    if jsStartsWith line "@@" then prettyLoop rest oldLine newLine
    else if jsStartsWith line "+" && !jsStartsWith line "+++" then
      ("+" ++ Nat.repr newLine ++ " " ++ jsSlice1 line) :: prettyLoop rest oldLine (newLine + 1)
    else if jsStartsWith line "-" && !jsStartsWith line "---" then
      ("-" ++ Nat.repr oldLine ++ " " ++ jsSlice1 line) :: prettyLoop rest (oldLine + 1) newLine
    else if jsStartsWith line " " then
      (" " ++ Nat.repr newLine ++ " " ++ jsSlice1 line) :: prettyLoop rest (oldLine + 1) (newLine + 1)
    else (" " ++ Nat.repr newLine ++ " " ++ line) :: prettyLoop rest oldLine newLine

/-- Render options (`prUrl`, `maxLines`, `maxHunks`). -/
structure RenderOptions where
  prUrl : Option String := none
  maxLines : Nat
  maxHunks : Nat

/-- The mutable locals of `formatDiffOutput`, gathered into a state. -/
structure RenderState where
  blocks : List String := []
  diffBlocks : List String := []
  shownHunks : Nat := 0
  shownFiles : Nat := 0
  shownLines : Nat := 0
  truncated : Bool := false
  suggestedRanges : List (String × List String) := []
deriving Repr, DecidableEq

/-- The `addBlock` closure: count the block's lines into `shownLines` and
append it. -/
def addBlock (s : RenderState) (text : String) : RenderState :=
  { s with shownLines := s.shownLines + countLines text, blocks := s.blocks ++ [text] }

/-- The `addDiffBlock` closure: whitespace-only text is skipped. -/
def addDiffBlock (s : RenderState) (text : String) : RenderState :=
  if jsIsBlank text then s else { s with diffBlocks := s.diffBlocks ++ [text] }

/-- Insertion-order update of `suggestedRanges[path] = ranges` on the model
of a JS object used as a map. -/
def upsertRanges (m : List (String × List String)) (k : String) (v : List String) :
    List (String × List String) :=
  if m.any (fun p => p.1 == k) then m.map (fun p => if p.1 == k then (k, v) else p)
  else m ++ [(k, v)]

/-- The per-file locals of the hunk loop. -/
structure HunkLoopAcc where
  st : RenderState
  fileShown : Bool
  diffStarted : Bool
  prettyHeaderAdded : Bool
deriving Repr, DecidableEq

/-- One iteration of the hunk loop of `formatDiffOutput` (the body after
the budget check). -/
def renderHunkStep (hashHex : String → String) (opts : RenderOptions) (file : DiffFile)
    (hunk : DiffHunk) (acc : HunkLoopAcc) : HunkLoopAcc :=
  let s := acc.st
  let remainingLines := opts.maxLines - s.shownLines
  let fullLines := file.headerLines ++ hunk.lines
  let sliced :=
    if fullLines.length > remainingLines then
      (fullLines.take (remainingLines - 1), true, { s with truncated := true })
    else (fullLines, false, s)
  let linesToRender := sliced.1
  let hunkTruncated := sliced.2.1
  let s := sliced.2.2
  let diffText := jsJoin "\n" linesToRender
  let block := "== " ++ file.path ++ " (hunk +" ++ Nat.repr hunk.newStart ++ ")\n" ++ diffText
  let block := if hunkTruncated then block ++ "\n... (truncated)" else block
  let s := addBlock s block
  let s := { s with shownHunks := s.shownHunks + 1 }
  let sp :=
    if !acc.prettyHeaderAdded then (addDiffBlock s ("  " ++ file.path), true)
    else (s, acc.prettyHeaderAdded)
  let s := sp.1
  let prettyHeaderAdded := sp.2
  let s := addDiffBlock s (jsJoin "\n" (prettyLoop hunk.lines hunk.oldStart hunk.newStart))
  let sd :=
    if !acc.diffStarted then (s, true)
    else (addDiffBlock s "", acc.diffStarted)
  let s := sd.1
  let diffStarted := sd.2
  let s :=
    match opts.prUrl with
    | some u =>
      let target := hunkLinkTarget hunk
      addBlock s ("GitHub: " ++ buildGithubLink hashHex u file.path (some target.line) target.side)
    | none => s
  { st := s, fileShown := true, diffStarted := diffStarted, prettyHeaderAdded := prettyHeaderAdded }

/-- The hunk loop with its budget check and early break. -/
def renderHunksLoop (hashHex : String → String) (opts : RenderOptions) (file : DiffFile) :
    List DiffHunk → HunkLoopAcc → HunkLoopAcc
  | [], acc => acc
  | hunk :: rest, acc =>
    if acc.st.shownHunks ≥ opts.maxHunks ∨ acc.st.shownLines ≥ opts.maxLines then
      { acc with st := { acc.st with truncated := true } }
    else renderHunksLoop hashHex opts file rest (renderHunkStep hashHex opts file hunk acc)

/-- The body of the file loop of `formatDiffOutput` for one file (after the
file-level budget check). -/
def renderFile (hashHex : String → String) (opts : RenderOptions) (s : RenderState)
    (file : DiffFile) : RenderState :=
  if file.hunks.isEmpty then
    let diffText := jsJoin "\n" file.headerLines
    let block := "== " ++ file.path ++ "\n" ++ diffText
    let s := addBlock s block
    let s := addDiffBlock s ("  " ++ file.path)
    let s :=
      match opts.prUrl with
      | some u => addBlock s ("GitHub: " ++ buildGithubLink hashHex u file.path none .R)
      | none => s
    { s with shownFiles := s.shownFiles + 1 }
  else
    let acc := renderHunksLoop hashHex opts file file.hunks
      { st := s, fileShown := false, diffStarted := false, prettyHeaderAdded := false }
    let s := acc.st
    let s :=
      if s.truncated ∧ isNewFileDiff file then
        { s with suggestedRanges :=
            upsertRanges s.suggestedRanges file.path (computeFileLineRanges file opts.maxLines) }
      else s
    if acc.fileShown then { s with shownFiles := s.shownFiles + 1 } else s

/-- The file loop of `formatDiffOutput` with its budget check and early
break. -/
def renderFilesLoop (hashHex : String → String) (opts : RenderOptions) :
    List DiffFile → RenderState → RenderState
  | [], s => s
  | file :: rest, s =>
    if s.shownHunks ≥ opts.maxHunks ∨ s.shownLines ≥ opts.maxLines then
      { s with truncated := true }
    else renderFilesLoop hashHex opts rest (renderFile hashHex opts s file)

/-- The fixed truncation note appended to `text`. -/
def truncationNote : String :=
  "---\nDiff output truncated. The diff has already been shown to the user; do NOT show another diff unless the user explicitly asks."

/-- The `info` record returned by `formatDiffOutput`. -/
structure RenderInfo where
  shownFiles : Nat
  shownHunks : Nat
  shownLines : Nat
  truncated : Bool
  suggestedRanges : List (String × List String)
deriving Repr, DecidableEq

/-- The full return value of `formatDiffOutput`. -/
structure RenderResult where
  text : String
  diffText : String
  info : RenderInfo
deriving Repr, DecidableEq

/-- The `formatDiffOutput` function of the source. -/
def formatDiffOutput (hashHex : String → String) (files : List DiffFile)
    (options : RenderOptions) : RenderResult :=
  if files.isEmpty then
    { text := "No diff output (filters removed all hunks)."
      diffText := ""
      info := { shownFiles := 0, shownHunks := 0, shownLines := 0, truncated := false,
                suggestedRanges := [] } }
  else
    let s := renderFilesLoop hashHex options files {}
    let blocks :=
      if s.truncated then
        let rangeHints := jsJoin "\n"
          (((s.suggestedRanges.filter (fun p => !p.2.isEmpty)).map
            (fun p => p.1 ++ ": " ++ jsJoin ", " p.2)))
        let note :=
          if rangeHints ≠ "" then truncationNote ++ "\nSuggested lineRange values:\n" ++ rangeHints
          else truncationNote
        s.blocks ++ [note]
      else s.blocks
    { text := jsJoin "\n\n" blocks
      diffText := jsJoin "\n" s.diffBlocks
      info := { shownFiles := s.shownFiles, shownHunks := s.shownHunks,
                shownLines := s.shownLines, truncated := s.truncated,
                suggestedRanges := s.suggestedRanges } }

/-! ## A concrete lawful `RegexEngine`

Used to instantiate theorems at concrete inputs.  Its `compile` rejects the
single pattern `"("` (which indeed throws in JS) and otherwise matches the
literal substring obtained by undoing the escape step. -/

/-- Undo `escapeRegexList`: drop each backslash that precedes a special
character. -/
def unescapeRegexList : List Char → List Char
  | [] => []
  | c :: rest =>
    if c = '\\' then
      match rest with
      | [] => ['\\']
      | c2 :: rest2 =>
        if isRegexSpecial c2 then c2 :: unescapeRegexList rest2
        else '\\' :: unescapeRegexList (c2 :: rest2)
    else c :: unescapeRegexList rest

theorem unescape_escape (cs : List Char) : unescapeRegexList (escapeRegexList cs) = cs := by
  induction cs with
  | nil => rfl
  | cons c cs ih =>
    by_cases hs : isRegexSpecial c
    · simp only [escapeRegexList, hs, if_pos, unescapeRegexList, if_pos rfl]
      simp [hs, ih]
    · have hne : c ≠ '\\' := by
        intro h
        subst h
        simp [isRegexSpecial] at hs
      simp only [escapeRegexList, hs, if_neg, ite_false]
      rw [unescapeRegexList.eq_def]
      simp [hne, ih]

theorem escape_ne_lparen (cs : List Char) : escapeRegexList cs ≠ ['('] := by
  cases cs with
  | nil => simp [escapeRegexList]
  | cons c cs =>
    by_cases hs : isRegexSpecial c
    · simp only [escapeRegexList, hs, ite_true]
      intro h
      have : '\\' = '(' := by
        have := List.head_eq_of_cons_eq h
        exact this
      simp at this
    · simp only [escapeRegexList, hs, ite_false]
      intro h
      have hc : c = '(' ∧ escapeRegexList cs = [] := by
        constructor
        · exact List.head_eq_of_cons_eq h
        · exact List.tail_eq_of_cons_eq h
      apply hs.elim
      rw [hc.1]
      simp [isRegexSpecial]

/-- A lawful concrete engine: every pattern except `"("` compiles, to the
literal-substring test of its unescaped form. -/
def litRegexEngine : RegexEngine where
  compile := fun p =>
    if p = "(" then none
    else some (fun l => isSubstr (String.mk (unescapeRegexList p.data)) l)
  escaped_literal := by
    intro p
    have hne : escapeRegexLiteral p ≠ "(" := by
      intro h
      apply escape_ne_lparen p.data
      have : (escapeRegexLiteral p).data = ("(" : String).data := by rw [h]
      simpa [escapeRegexLiteral] using this
    refine ⟨fun l => isSubstr (String.mk (unescapeRegexList (escapeRegexLiteral p).data)) l,
      ?_, ?_⟩
    · simp only [hne, ite_false]
    · intro l
      simp [escapeRegexLiteral, unescape_escape]

/-! ## Line classification and the replay of a hunk

`classifyLine` applies exactly the prefix tests, in exactly the order, used
by `sliceByRange`, `applyGrep`'s context walk, `hunkLinkTarget`,
`computeFileLineRanges` and the pretty renumbering loop.  `replayLoop`
annotates each line with its kind and the running old/new line numbers;
it is the specification-side description of all those walks. -/

/-- Kind of a raw diff line under the source's prefix tests. -/
inductive LineKind where
  | hunkHeader
  | added
  | removed
  | context
  | other
deriving Repr, DecidableEq

/-- Classify one line with the source's tests, in the source's order. -/
def classifyLine (line : String) : LineKind :=
  if jsStartsWith line "@@" then .hunkHeader
  else if jsStartsWith line "+" && !jsStartsWith line "+++" then .added
  else if jsStartsWith line "-" && !jsStartsWith line "---" then .removed
  else if jsStartsWith line " " then .context
  else .other

/-- One annotated line of a replay. -/
structure ReplayEntry where
  text : String
  kind : LineKind
  oldNo : Nat
  newNo : Nat
deriving Repr, DecidableEq

/-- Replay a line list from the given starting counters: added lines get
the current new number, removed lines the current old number, context lines
both; headers and unclassified lines advance nothing. -/
def replayLoop : List String → Nat → Nat → List ReplayEntry
  | [], _, _ => []
  | l :: rest, o, n =>
    match classifyLine l with
    | .added => { text := l, kind := .added, oldNo := o, newNo := n } :: replayLoop rest o (n + 1)
    | .removed => { text := l, kind := .removed, oldNo := o, newNo := n } :: replayLoop rest (o + 1) n
    | .context =>
      { text := l, kind := .context, oldNo := o, newNo := n } :: replayLoop rest (o + 1) (n + 1)
    | k => { text := l, kind := k, oldNo := o, newNo := n } :: replayLoop rest o n

/-- The replay of a hunk, seeded from its parsed header numbers. -/
def hunkReplay (h : DiffHunk) : List ReplayEntry :=
  replayLoop h.lines h.oldStart h.newStart

/-- New-file line numbers of the added lines of a hunk, in order. -/
def addedNewLines (h : DiffHunk) : List Nat :=
  (hunkReplay h).filterMap (fun e => if e.kind = .added then some e.newNo else none)

/-- Old-file line numbers of the removed lines of a hunk, in order. -/
def removedOldLines (h : DiffHunk) : List Nat :=
  (hunkReplay h).filterMap (fun e => if e.kind = .removed then some e.oldNo else none)

/-- Added lines of a hunk as (text, new-file line number) pairs. -/
def addedEntries (h : DiffHunk) : List (String × Nat) :=
  (hunkReplay h).filterMap (fun e => if e.kind = .added then some (e.text, e.newNo) else none)

/-- New-file line numbers of the context lines of a hunk, in order. -/
def contextNewLines (h : DiffHunk) : List Nat :=
  (hunkReplay h).filterMap (fun e => if e.kind = .context then some e.newNo else none)

/-- Exhaustive case split aligning `classifyLine` with the raw boolean
tests performed inline by the source's loops. -/
theorem classify_spec (l : String) :
    (jsStartsWith l "@@" = true ∧ classifyLine l = .hunkHeader)
  ∨ (jsStartsWith l "@@" = false
      ∧ (jsStartsWith l "+" && !jsStartsWith l "+++") = true ∧ classifyLine l = .added)
  ∨ (jsStartsWith l "@@" = false ∧ (jsStartsWith l "+" && !jsStartsWith l "+++") = false
      ∧ (jsStartsWith l "-" && !jsStartsWith l "---") = true ∧ classifyLine l = .removed)
  ∨ (jsStartsWith l "@@" = false ∧ (jsStartsWith l "+" && !jsStartsWith l "+++") = false
      ∧ (jsStartsWith l "-" && !jsStartsWith l "---") = false
      ∧ jsStartsWith l " " = true ∧ classifyLine l = .context)
  ∨ (jsStartsWith l "@@" = false ∧ (jsStartsWith l "+" && !jsStartsWith l "+++") = false
      ∧ (jsStartsWith l "-" && !jsStartsWith l "---") = false
      ∧ jsStartsWith l " " = false ∧ classifyLine l = .other) := by
  unfold classifyLine
  by_cases h1 : jsStartsWith l "@@" = true
  · left
    simp [h1]
  · replace h1 := Bool.eq_false_iff.mpr h1
    by_cases h2 : (jsStartsWith l "+" && !jsStartsWith l "+++") = true
    · right; left
      simp [h1, h2]
    · replace h2 := Bool.eq_false_iff.mpr h2
      by_cases h3 : (jsStartsWith l "-" && !jsStartsWith l "---") = true
      · right; right; left
        simp [h1, h2, h3]
      · replace h3 := Bool.eq_false_iff.mpr h3
        by_cases h4 : jsStartsWith l " " = true
        · right; right; right; left
          simp [h1, h2, h3, h4]
        · replace h4 := Bool.eq_false_iff.mpr h4
          right; right; right; right
          simp [h1, h2, h3, h4]

/-- First added-line new number of a replay. -/
def firstAddedNew (lines : List String) (o n : Nat) : Option Nat :=
  ((replayLoop lines o n).filterMap
    (fun e => if e.kind = .added then some e.newNo else none)).head?

/-- First removed-line old number of a replay. -/
def firstRemovedOld (lines : List String) (o n : Nat) : Option Nat :=
  ((replayLoop lines o n).filterMap
    (fun e => if e.kind = .removed then some e.oldNo else none)).head?

theorem hunkTargetLoop_spec (lines : List String) :
    ∀ o n fa fr, hunkTargetLoop lines o n fa fr =
      ((match fa with | some a => some a | none => firstAddedNew lines o n),
       (match fr with | some r => some r | none => firstRemovedOld lines o n)) := by
  induction lines with
  | nil =>
    intro o n fa fr
    cases fa <;> cases fr <;> simp [hunkTargetLoop, firstAddedNew, firstRemovedOld, replayLoop]
  | cons line rest ih =>
    intro o n fa fr
    rcases classify_spec line with ⟨h1, hc⟩ | ⟨h1, h2, hc⟩ | ⟨h1, h2, h3, hc⟩
      | ⟨h1, h2, h3, h4, hc⟩ | ⟨h1, h2, h3, h4, hc⟩
    · simp only [hunkTargetLoop, h1, if_true, firstAddedNew, firstRemovedOld, replayLoop, hc,
        List.filterMap]
      rw [ih]
      simp [firstAddedNew, firstRemovedOld]
    · simp only [hunkTargetLoop, h1, h2, Bool.false_eq_true, if_false, if_true, firstAddedNew,
        firstRemovedOld, replayLoop, hc, List.filterMap]
      rw [ih]
      cases fa <;> cases fr <;> simp [firstAddedNew, firstRemovedOld]
    · simp only [hunkTargetLoop, h1, h2, h3, Bool.false_eq_true, if_false, if_true, firstAddedNew,
        firstRemovedOld, replayLoop, hc, List.filterMap]
      rw [ih]
      cases fa <;> cases fr <;> simp [firstAddedNew, firstRemovedOld]
    · simp only [hunkTargetLoop, h1, h2, h3, h4, Bool.false_eq_true, if_false, if_true,
        firstAddedNew, firstRemovedOld, replayLoop, hc, List.filterMap]
      rw [ih]
      simp [firstAddedNew, firstRemovedOld]
    · simp only [hunkTargetLoop, h1, h2, h3, h4, Bool.false_eq_true, if_false, firstAddedNew,
        firstRemovedOld, replayLoop, hc, List.filterMap]
      rw [ih]
      simp [firstAddedNew, firstRemovedOld]

/-- The claim C8 statement: `hunkLinkTarget` returns the first added line's
new number with side R, else the first removed line's old number with side
L, else `(newStart, R)`, with line numbers given by the replay. -/
theorem c8_hunk_link_target_spec (h : DiffHunk) :
    hunkLinkTarget h =
      match addedNewLines h with
      | a :: _ => { line := a, side := .R }
      | [] =>
        match removedOldLines h with
        | r :: _ => { line := r, side := .L }
        | [] => { line := h.newStart, side := .R } := by
  unfold hunkLinkTarget
  rw [hunkTargetLoop_spec]
  have ha : addedNewLines h =
      (replayLoop h.lines h.oldStart h.newStart).filterMap
        (fun e => if e.kind = .added then some e.newNo else none) := rfl
  have hr : removedOldLines h =
      (replayLoop h.lines h.oldStart h.newStart).filterMap
        (fun e => if e.kind = .removed then some e.oldNo else none) := rfl
  simp only [firstAddedNew, firstRemovedOld, ← ha, ← hr]
  cases hA : addedNewLines h <;> cases hR : removedOldLines h <;> simp [hA, hR]

/-! ## Parser invariants -/

/-- A string with no newline character (every line produced by
`splitLines` satisfies this). -/
def noNewline (s : String) : Bool :=
  s.data.all (fun c => c != '\n')

theorem splitLinesList_no_newline (cs : List Char) : ∀ p ∈ splitLinesList cs, '\n' ∉ p := by
  induction cs with
  | nil =>
    intro p hp
    have hp' : p = [] := by simpa [splitLinesList] using hp
    subst hp'
    simp
  | cons c cs ih =>
    intro p hp
    by_cases hc : c = '\n'
    · simp only [splitLinesList, hc, if_pos rfl] at hp
      rcases List.mem_cons.mp hp with hp | hp
      · simp [hp]
      · exact ih p hp
    · simp only [splitLinesList, hc, ite_false] at hp
      rcases hr : splitLinesList cs with - | ⟨r, rs⟩
      · rw [hr] at hp
        simp only [List.mem_singleton] at hp
        subst hp
        intro hm
        rcases List.mem_cons.mp hm with hm | hm
        · exact hc hm.symm
        · simp at hm
      · rw [hr] at hp
        rcases List.mem_cons.mp hp with hp | hp
        · subst hp
          have hr' : r ∈ splitLinesList cs := by rw [hr]; exact List.mem_cons_self r rs
          have hnr := ih r hr'
          intro hm
          rcases List.mem_cons.mp hm with hm | hm
          · exact hc hm.symm
          · exact hnr hm
        · exact ih p (by rw [hr]; exact List.mem_cons_of_mem r hp)

theorem splitLines_no_newline (s : String) : ∀ l ∈ splitLines s, noNewline l = true := by
  intro l hl
  rcases List.mem_map.mp hl with ⟨p, hp, rfl⟩
  have := splitLinesList_no_newline s.data p hp
  simp only [noNewline, List.all_eq_true]
  intro c hc
  simp only [bne_iff_ne, ne_eq]
  intro hcn
  exact this (hcn ▸ hc)

theorem splitLinesList_single (cs : List Char) (h : '\n' ∉ cs) : splitLinesList cs = [cs] := by
  induction cs with
  | nil => rfl
  | cons c cs ih =>
    have hc : c ≠ '\n' := fun hc => h (hc ▸ List.mem_cons_self c cs)
    have hcs : '\n' ∉ cs := fun hm => h (List.mem_cons_of_mem c hm)
    simp [splitLinesList, hc, ih hcs]

theorem splitLines_single (s : String) (h : noNewline s = true) : splitLines s = [s] := by
  have hn : '\n' ∉ s.data := by
    intro hm
    have := (List.all_eq_true.mp h) '\n' hm
    simp at this
  simp [splitLines, splitLinesList_single s.data hn]

theorem replaceFirstList_of_prefix (pat s : List Char) (h : pat.isPrefixOf s = true) :
    replaceFirstList pat [] s = s.drop pat.length := by
  cases s with
  | nil =>
    have : pat = [] := by
      cases pat with
      | nil => rfl
      | cons p ps => simp [List.isPrefixOf] at h
    simp [replaceFirstList, this]
  | cons c cs => simp [replaceFirstList, h]

/-- Structural well-formedness of a parsed file: nonempty header lines, and
every hunk carries its `@@ ` header as `lines[0]`. -/
def GoodFile (f : DiffFile) : Prop :=
  f.headerLines ≠ [] ∧
    ∀ h ∈ f.hunks, h.lines.head? = some h.header ∧ jsStartsWith h.header "@@ " = true

/-- The same invariant for the parser cursor. -/
def GoodCur (cf : CurFile) : Prop :=
  cf.headerLines ≠ [] ∧
    (∀ h ∈ cf.hunks, h.lines.head? = some h.header ∧ jsStartsWith h.header "@@ " = true) ∧
    ∀ h, cf.curHunk = some h → h.lines.head? = some h.header ∧ jsStartsWith h.header "@@ " = true

theorem closeFile_good (cf : CurFile) (h : GoodCur cf) : GoodFile (closeFile cf) := by
  obtain ⟨h1, h2, h3⟩ := h
  refine ⟨h1, ?_⟩
  intro hk hmem
  simp only [closeFile] at hmem
  rcases List.mem_append.mp hmem with hm | hm
  · exact h2 hk hm
  · rcases hcur : cf.curHunk with - | ⟨hh⟩
    · rw [hcur] at hm
      simp at hm
    · rw [hcur] at hm
      simp at hm
      subst hm
      exact h3 hk hcur

theorem parseStep_good (lines : List String) :
    ∀ files cur, (∀ f ∈ files, GoodFile f) → (∀ cf, cur = some cf → GoodCur cf) →
      ∀ f ∈ parseStep lines files cur, GoodFile f := by
  induction lines with
  | nil =>
    intro files cur hf hc f hmem
    simp only [parseStep] at hmem
    rcases List.mem_append.mp hmem with hm | hm
    · exact hf f hm
    · rcases hcur : cur with - | cf
      · rw [hcur] at hm; simp at hm
      · rw [hcur] at hm
        simp at hm
        subst hm
        exact closeFile_good cf (hc cf hcur)
  | cons line rest ih =>
    intro files cur hf hc f hmem
    by_cases hgit : jsStartsWith line "diff --git " = true
    · simp only [parseStep, hgit, if_pos] at hmem
      refine ih _ _ ?_ ?_ f hmem
      · intro g hg
        rcases List.mem_append.mp hg with hm | hm
        · exact hf g hm
        · rcases hcur : cur with - | cf
          · rw [hcur] at hm; simp at hm
          · rw [hcur] at hm
            simp at hm
            subst hm
            exact closeFile_good cf (hc cf hcur)
      · intro cf hcf
        injection hcf with hcf
        subst hcf
        exact ⟨by simp, by intro h hm; simp at hm, by intro h hm; simp at hm⟩
    · replace hgit := Bool.eq_false_iff.mpr hgit
      rcases hcur : cur with - | cf
      · rw [hcur] at hmem
        simp only [parseStep, hgit, Bool.false_eq_true, if_false] at hmem
        exact ih _ _ hf (by intro cf h; exact absurd h (by simp)) f hmem
      · rw [hcur] at hmem
        have hcf := hc cf hcur
        by_cases hhdr : jsStartsWith line "@@ " = true
        · simp only [parseStep, hgit, Bool.false_eq_true, if_false, hhdr, if_pos] at hmem
          refine ih _ _ hf ?_ f hmem
          intro cf' hcf'
          injection hcf' with hcf'
          subst hcf'
          refine ⟨hcf.1, ?_, ?_⟩
          · intro h hm
            simp only at hm
            rcases List.mem_append.mp hm with hm | hm
            · exact hcf.2.1 h hm
            · rcases hch : cf.curHunk with - | ch
              · rw [hch] at hm; simp at hm
              · rw [hch] at hm
                simp at hm
                rw [hm]
                exact hcf.2.2 ch hch
          · intro h hm
            simp only [Option.some.injEq] at hm
            subst hm
            exact ⟨rfl, hhdr⟩
        · replace hhdr := Bool.eq_false_iff.mpr hhdr
          rcases hch : cf.curHunk with - | ch
          · simp only [parseStep, hgit, Bool.false_eq_true, if_false, hhdr, hch] at hmem
            refine ih _ _ hf ?_ f hmem
            intro cf' hcf'
            injection hcf' with hcf'
            subst hcf'
            refine ⟨by simp [hcf.1], hcf.2.1, ?_⟩
            intro h hm
            simp at hm
          · simp only [parseStep, hgit, Bool.false_eq_true, if_false, hhdr, hch] at hmem
            refine ih _ _ hf ?_ f hmem
            intro cf' hcf'
            injection hcf' with hcf'
            subst hcf'
            have hgood := hcf.2.2 ch hch
            refine ⟨hcf.1, hcf.2.1, ?_⟩
            intro h hm
            simp only [Option.some.injEq] at hm
            subst hm
            refine ⟨?_, hgood.2⟩
            have hne : ch.lines ≠ [] := by
              intro he
              rw [he] at hgood
              simp at hgood
            rcases hl : ch.lines with - | ⟨x, xs⟩
            · exact absurd hl hne
            · rw [hl] at hgood
              simp only [List.cons_append, List.head?_cons]
              simpa using hgood.1

/-- Every file produced by `parseUnifiedDiff` is well-formed. -/
theorem parse_good_files (d : String) : ∀ f ∈ parseUnifiedDiff d, GoodFile f := by
  intro f hf
  exact parseStep_good (splitLines d) [] none (by simp) (by simp) f hf

/-! ## Claim C4 -/

/-- Counterexample to claim C4 as stated: the unparsable header line
`"diff --git x"` produces a file whose path is `"x"` — the raw line with
the leading `"diff --git "` removed by `line.replace("diff --git ", "")` —
not the entire raw line. -/
theorem c4_counterexample :
    parseUnifiedDiff "diff --git x"
        = [{ path := "x", headerLines := ["diff --git x"], hunks := [] }]
      ∧ "x" ≠ "diff --git x" := by
  constructor
  · rfl
  · decide

/-- Claim C4 amended: for a line beginning with `"diff --git "` (and with
no embedded newline, so that it is one input line) that the header pattern
does not match, the parsed entry's path is the line text with the leading
11-character `"diff --git "` marker removed. -/
theorem c4_amended (line : String)
    (hgit : jsStartsWith line "diff --git " = true)
    (hnomatch : gitHeaderPath line = none)
    (hsingle : noNewline line = true) :
    parsedFilePath line = String.mk (line.data.drop 11) ∧
      parseUnifiedDiff line =
        [{ path := String.mk (line.data.drop 11), headerLines := [line], hunks := [] }] := by
  have hpath : parsedFilePath line = String.mk (line.data.drop 11) := by
    unfold parsedFilePath
    rw [hnomatch]
    show jsReplaceFirst line "diff --git " "" = _
    unfold jsReplaceFirst
    have hpre : ("diff --git " : String).data.isPrefixOf line.data = true := hgit
    have hlen : ("diff --git " : String).data.length = 11 := rfl
    rw [show ("" : String).data = [] from rfl, replaceFirstList_of_prefix _ _ hpre, hlen]
  refine ⟨hpath, ?_⟩
  unfold parseUnifiedDiff
  rw [splitLines_single line hsingle]
  simp only [parseStep, hgit, if_pos, List.nil_append]
  rw [hpath]
  rfl

/-- Witness for C4 amended at the concrete line `"diff --git x"`. -/
theorem c4_amended_witness :
    parsedFilePath "diff --git x" = String.mk (("diff --git x" : String).data.drop 11) :=
  (c4_amended "diff --git x" (by decide) (by decide) (by decide)).1

/-! ## Claim C9: the hunk header stays at `lines[0]` -/

/-- A hunk whose `@@` header line is its `lines[0]` (the form the filter
stages rely on: they test the two-character prefix `"@@"`). -/
def HeaderFirst (h : DiffHunk) : Prop :=
  h.lines.head? = some h.header ∧ jsStartsWith h.header "@@" = true

/-- The per-hunk pipeline applied by `filterDiffFiles` (range slice, then
grep). -/
def hunkPipeline (eng : RegexEngine) (opts : FilterOptions) (hunk : DiffHunk) :
    Option DiffHunk :=
  match sliceByRange opts.lineRange hunk with
  | none => none
  | some ranged => applyGrep (compileGrep eng opts.grep) (opts.grepContext.getD 0) ranged

/-- The path stage of `filterDiffFiles`. -/
def pathStage (opts : FilterOptions) (files : List DiffFile) : List DiffFile :=
  match opts.paths with
  | some ps => if !ps.isEmpty then files.filter (pathMatches ps) else files
  | none => files

/-- The keep test applied after the per-hunk pipeline. -/
def fileKeep (file : DiffFile) : Bool :=
  !file.hunks.isEmpty || !file.headerLines.isEmpty

/-- Apply the per-hunk pipeline to one file. -/
def mapFileHunks (eng : RegexEngine) (opts : FilterOptions) (file : DiffFile) : DiffFile :=
  { file with hunks := file.hunks.filterMap (hunkPipeline eng opts) }

/-- Restatement of `filterDiffFiles` through `hunkPipeline`. -/
theorem filterDiffFiles_eq (eng : RegexEngine) (files : List DiffFile) (opts : FilterOptions) :
    filterDiffFiles eng files opts =
      match compileGrep eng opts.grep with
      | none => ((pathStage opts files).map (mapFileHunks eng opts)).filter fileKeep
      | some _ =>
        (((pathStage opts files).map (mapFileHunks eng opts)).filter fileKeep).filter
          (fun file => !file.hunks.isEmpty) := rfl

theorem pathStage_subset {opts : FilterOptions} {files : List DiffFile} {f : DiffFile}
    (h : f ∈ pathStage opts files) : f ∈ files := by
  unfold pathStage at h
  rcases hp : opts.paths with - | ps
  · rw [hp] at h
    exact h
  · rw [hp] at h
    simp only at h
    by_cases hne : (!ps.isEmpty) = true
    · rw [if_pos hne] at h
      exact (List.mem_filter.mp h).1
    · rw [if_neg hne] at h
      exact h

/-- Origin of a file in the filter output: it is an input file with its
hunks mapped through the per-hunk pipeline. -/
theorem filterDiffFiles_mem {eng : RegexEngine} {files : List DiffFile} {opts : FilterOptions}
    {f' : DiffFile} (h : f' ∈ filterDiffFiles eng files opts) :
    ∃ f ∈ files, f' = mapFileHunks eng opts f := by
  rw [filterDiffFiles_eq] at h
  have hout : f' ∈ (pathStage opts files).map (mapFileHunks eng opts) := by
    rcases hg : compileGrep eng opts.grep with - | g
    · rw [hg] at h
      exact (List.mem_filter.mp h).1
    · rw [hg] at h
      exact (List.mem_filter.mp (List.mem_filter.mp h).1).1
  rcases List.mem_map.mp hout with ⟨f, hf, heq⟩
  exact ⟨f, pathStage_subset hf, heq.symm⟩

theorem sliceLoop_acc (lr : LineRange) (lines : List String) :
    ∀ o n acc b, ∃ t, (sliceLoop lr lines o n acc b).1 = acc ++ t := by
  induction lines with
  | nil =>
    intro o n acc b
    exact ⟨[], by simp [sliceLoop]⟩
  | cons line rest ih =>
    intro o n acc b
    rcases classify_spec line with ⟨h1, -⟩ | ⟨h1, h2, -⟩ | ⟨h1, h2, h3, -⟩
      | ⟨h1, h2, h3, h4, -⟩ | ⟨h1, h2, h3, h4, -⟩
    · simp only [sliceLoop, h1, if_pos]
      rcases ih o n (acc ++ [line]) b with ⟨t, ht⟩
      exact ⟨line :: t, by rw [ht]; simp⟩
    · simp only [sliceLoop, h1, Bool.false_eq_true, if_false, h2, if_pos]
      by_cases hin : lr.start ≤ n ∧ n ≤ lr.stop
      · rw [if_pos hin]
        rcases ih o (n + 1) (acc ++ [line]) true with ⟨t, ht⟩
        exact ⟨line :: t, by rw [ht]; simp⟩
      · rw [if_neg hin]
        exact ih o (n + 1) acc b
    · simp only [sliceLoop, h1, h2, h3, Bool.false_eq_true, if_false, if_pos]
      exact ih (o + 1) n acc b
    · simp only [sliceLoop, h1, h2, h3, h4, Bool.false_eq_true, if_false, if_pos]
      by_cases hin : lr.start ≤ n ∧ n ≤ lr.stop
      · rw [if_pos hin]
        rcases ih (o + 1) (n + 1) (acc ++ [line]) true with ⟨t, ht⟩
        exact ⟨line :: t, by rw [ht]; simp⟩
      · rw [if_neg hin]
        exact ih (o + 1) (n + 1) acc b
    · simp only [sliceLoop, h1, h2, h3, h4, Bool.false_eq_true, if_false]
      exact ih o n acc b

theorem sliceByRange_headerFirst {lr : Option LineRange} {h h' : DiffHunk}
    (hh : HeaderFirst h) (hs : sliceByRange lr h = some h') : HeaderFirst h' := by
  rcases lr with - | lr
  · simp only [sliceByRange, Option.some.injEq] at hs
    exact hs ▸ hh
  · obtain ⟨hhead, hpre⟩ := hh
    rcases hl : h.lines with - | ⟨x, xs⟩
    · rw [hl] at hhead; simp at hhead
    · rw [hl] at hhead
      simp only [List.head?_cons, Option.some.injEq] at hhead
      subst hhead
      simp only [sliceByRange, hl] at hs
      rw [show sliceLoop lr (h.header :: xs) h.oldStart h.newStart [] false
          = sliceLoop lr xs h.oldStart h.newStart [h.header] false from by
        simp [sliceLoop, hpre]] at hs
      rcases sliceLoop_acc lr xs h.oldStart h.newStart [h.header] false with ⟨t, ht⟩
      by_cases hb : (sliceLoop lr xs h.oldStart h.newStart [h.header] false).2 = true
      · rw [if_pos hb] at hs
        injection hs with hs
        subst hs
        exact ⟨by simp [ht], hpre⟩
      · rw [if_neg hb] at hs
        exact absurd hs (by simp)

theorem applyGrep_headerFirst {g : Option (String → Bool)} {ctx : Nat} {h h' : DiffHunk}
    (hh : HeaderFirst h) (hs : applyGrep g ctx h = some h') : HeaderFirst h' := by
  rcases g with - | g
  · simp only [applyGrep, Option.some.injEq] at hs
    exact hs ▸ hh
  · obtain ⟨hhead, hpre⟩ := hh
    simp only [applyGrep] at hs
    by_cases hm : (grepMatchLines g h.lines).isEmpty = true
    · rw [if_pos hm] at hs
      exact absurd hs (by simp)
    · rw [if_neg hm] at hs
      by_cases hctx : ctx ≤ 0
      · rw [if_pos hctx] at hs
        injection hs with hs
        exact hs ▸ ⟨hhead, hpre⟩
      · rw [if_neg hctx] at hs
        injection hs with hs
        subst hs
        rcases hl : h.lines with - | ⟨x, xs⟩
        · rw [hl] at hhead; simp at hhead
        · rw [hl] at hhead
          simp only [List.head?_cons, Option.some.injEq] at hhead
          subst hhead
          refine ⟨?_, hpre⟩
          simp only [hl]
          rw [show (h.header :: xs).enum = (0, h.header) :: List.enumFrom 1 xs from rfl]
          rw [List.filter_cons]
          simp

/-- The claim C9 statement: parsing puts each hunk's `@@ ` header at
`lines[0]`, and filtering preserves the header-first invariant for every
output hunk whose input hunk satisfied it. -/
theorem c9_header_first_invariant :
    (∀ d : String, ∀ f ∈ parseUnifiedDiff d, ∀ h ∈ f.hunks,
        h.lines.head? = some h.header ∧ jsStartsWith h.header "@@ " = true)
  ∧ (∀ (eng : RegexEngine) (files : List DiffFile) (opts : FilterOptions),
      (∀ f ∈ files, ∀ h ∈ f.hunks, HeaderFirst h) →
      ∀ f ∈ filterDiffFiles eng files opts, ∀ h ∈ f.hunks, HeaderFirst h) := by
  constructor
  · intro d f hf h hh
    exact (parse_good_files d f hf).2 h hh
  · intro eng files opts hinv f' hf' h' hh'
    rcases filterDiffFiles_mem hf' with ⟨f, hf, rfl⟩
    simp only [mapFileHunks] at hh'
    rcases List.mem_filterMap.mp hh' with ⟨h0, hh0, hpipe⟩
    unfold hunkPipeline at hpipe
    rcases hsl : sliceByRange opts.lineRange h0 with - | ranged
    · rw [hsl] at hpipe
      exact absurd hpipe (by simp)
    · rw [hsl] at hpipe
      exact applyGrep_headerFirst (sliceByRange_headerFirst (hinv f hf h0 hh0) hsl) hpipe

/-- Witness for the filter part of C9 at a concrete diff, engine and
options. -/
theorem c9_witness :
    HeaderFirst { header := "@@ -10,6 +10,7 @@", lines := ["@@ -10,6 +10,7 @@", "+a15"],
                  oldStart := 10, newStart := 10 } := by
  have hfiles := c9_header_first_invariant.2 litRegexEngine
    (parseUnifiedDiff "diff --git a/f b/f\n@@ -10,6 +10,7 @@\n c10\n c11\n c12\n c13\n c14\n+a15")
    { lineRange := some { start := 15, stop := 15 } }
    (by intro f hf h hh; exact ⟨(parse_good_files _ f hf).2 h hh |>.1, by
      have := ((parse_good_files _ f hf).2 h hh).2
      unfold jsStartsWith at this ⊢
      cases hp : ("@@ " : String).data.isPrefixOf h.header.data
      · rw [hp] at this; exact absurd this (by simp)
      · have : ("@@" : String).data.isPrefixOf h.header.data = true := by
          have hpre := List.isPrefixOf_iff_prefix.mp hp
          exact List.isPrefixOf_iff_prefix.mpr (List.IsPrefix.trans (by decide) hpre)
        exact this⟩)
  have hlist : filterDiffFiles litRegexEngine
      (parseUnifiedDiff "diff --git a/f b/f\n@@ -10,6 +10,7 @@\n c10\n c11\n c12\n c13\n c14\n+a15")
      { lineRange := some { start := 15, stop := 15 } }
      = [{ path := "f", headerLines := ["diff --git a/f b/f"],
           hunks := [{ header := "@@ -10,6 +10,7 @@", lines := ["@@ -10,6 +10,7 @@", "+a15"],
                       oldStart := 10, newStart := 10 }] }] := by decide
  exact hfiles
    { path := "f", headerLines := ["diff --git a/f b/f"],
      hunks := [{ header := "@@ -10,6 +10,7 @@", lines := ["@@ -10,6 +10,7 @@", "+a15"],
                  oldStart := 10, newStart := 10 }] }
    (by rw [hlist]; exact List.mem_singleton.mpr rfl)
    { header := "@@ -10,6 +10,7 @@", lines := ["@@ -10,6 +10,7 @@", "+a15"],
      oldStart := 10, newStart := 10 }
    (List.mem_singleton.mpr rfl)

/-! ## Small list lemmas shared by the filter claims -/

theorem filterMap_id_of_mem {α : Type} {p : α → Option α} {l : List α}
    (h : ∀ a ∈ l, p a = some a) : l.filterMap p = l := by
  induction l with
  | nil => rfl
  | cons x xs ih =>
    rw [List.filterMap_cons, h x (List.mem_cons_self x xs),
      ih (fun a ha => h a (List.mem_cons_of_mem x ha))]

theorem map_id_of_mem {α : Type} {f : α → α} {l : List α} (h : ∀ a ∈ l, f a = a) :
    l.map f = l := by
  induction l with
  | nil => rfl
  | cons x xs ih =>
    rw [List.map_cons, h x (List.mem_cons_self x xs),
      ih (fun a ha => h a (List.mem_cons_of_mem x ha))]

/-! ## Claim C7: invalid grep pattern falls back to a literal match -/

/-- The claim C7 statement: whenever the supplied pattern fails to compile,
`compileGrep` still produces a matcher, and that matcher is the literal
substring test for the original pattern (obtained by compiling the
special-character-escaped pattern).  The empty pattern is excluded: it
always compiles in JS (and `compileGrep` short-circuits it to "no
grep"). -/
theorem c7_grep_fallback_literal (eng : RegexEngine) (p : String)
    (hne : p ≠ "") (hfail : eng.compile p = none) :
    ∃ m, compileGrep eng (some p) = some m ∧ ∀ l, m l = isSubstr p l := by
  obtain ⟨m, hm, hsem⟩ := eng.escaped_literal p
  refine ⟨m, ?_, hsem⟩
  show (if p = "" then none
    else match eng.compile p with
      | some m => some m
      | none => eng.compile (escapeRegexLiteral p)) = some m
  rw [if_neg hne, hfail, hm]

/-- Witness for C7: the pattern `"("` does not compile under the concrete
engine, and the fallback matcher is the literal substring test. -/
theorem c7_witness :
    ∃ m, compileGrep litRegexEngine (some "(") = some m ∧ ∀ l, m l = isSubstr "(" l :=
  c7_grep_fallback_literal litRegexEngine "(" (by decide) rfl

/-! ## Claim C3: zero-hunk files in the filter output -/

/-- Counterexample to claim C3 as stated: with only a `lineRange` filter
(no grep), a file whose single hunk is entirely removed by the range slice
stays in the output with zero hunks, though it had one hunk in the
input. -/
theorem c3_counterexample :
    (parseUnifiedDiff "diff --git a/f b/f\n@@ -10,6 +10,7 @@\n c10\n c11\n c12\n c13\n c14\n+a15").map
        (fun f => f.hunks.length) = [1]
      ∧ filterDiffFiles litRegexEngine
          (parseUnifiedDiff "diff --git a/f b/f\n@@ -10,6 +10,7 @@\n c10\n c11\n c12\n c13\n c14\n+a15")
          { lineRange := some { start := 100, stop := 100 } }
          = [{ path := "f", headerLines := ["diff --git a/f b/f"], hunks := [] }] := by
  constructor
  · decide
  · decide

/-- Claim C3 amended: the zero-remaining-hunks drop only happens when a
grep is active — when `options.grep` compiles to a matcher, every file in
the filter output has at least one hunk; without a grep, a file whose
hunks were all removed by the range slice survives (with zero hunks)
whenever it has header lines. -/
theorem c3_amended (eng : RegexEngine) (files : List DiffFile) (opts : FilterOptions)
    (hgrep : compileGrep eng opts.grep ≠ none) :
    ∀ f ∈ filterDiffFiles eng files opts, f.hunks ≠ [] := by
  intro f hf
  rw [filterDiffFiles_eq] at hf
  rcases hg : compileGrep eng opts.grep with - | g
  · exact absurd hg hgrep
  · rw [hg] at hf
    have hkeep := (List.mem_filter.mp hf).2
    simpa using hkeep

/-- Witness for C3 amended at a concrete diff and grep. -/
theorem c3_witness :
    filterDiffFiles litRegexEngine
        (parseUnifiedDiff "diff --git a/f b/f\n@@ -10,6 +10,7 @@\n c10\n c11\n c12\n c13\n c14\n+a15")
        { grep := some "a15" }
        = [{ path := "f", headerLines := ["diff --git a/f b/f"],
             hunks := [{ header := "@@ -10,6 +10,7 @@",
                         lines := ["@@ -10,6 +10,7 @@", " c10", " c11", " c12", " c13", " c14", "+a15"],
                         oldStart := 10, newStart := 10 }] }]
      ∧ ({ path := "f", headerLines := ["diff --git a/f b/f"],
           hunks := [{ header := "@@ -10,6 +10,7 @@",
                       lines := ["@@ -10,6 +10,7 @@", " c10", " c11", " c12", " c13", " c14", "+a15"],
                       oldStart := 10, newStart := 10 }] } : DiffFile).hunks ≠ [] := by
  have hlist : filterDiffFiles litRegexEngine
      (parseUnifiedDiff "diff --git a/f b/f\n@@ -10,6 +10,7 @@\n c10\n c11\n c12\n c13\n c14\n+a15")
      { grep := some "a15" }
      = [{ path := "f", headerLines := ["diff --git a/f b/f"],
           hunks := [{ header := "@@ -10,6 +10,7 @@",
                       lines := ["@@ -10,6 +10,7 @@", " c10", " c11", " c12", " c13", " c14", "+a15"],
                       oldStart := 10, newStart := 10 }] }] := by decide
  refine ⟨hlist, ?_⟩
  have hg : compileGrep litRegexEngine (some "a15")
      = some (fun l => isSubstr (String.mk (unescapeRegexList ("a15" : String).data)) l) := rfl
  exact c3_amended litRegexEngine
    (parseUnifiedDiff "diff --git a/f b/f\n@@ -10,6 +10,7 @@\n c10\n c11\n c12\n c13\n c14\n+a15")
    { grep := some "a15" }
    (by rw [hg]; simp)
    _ (by rw [hlist]; exact List.mem_singleton.mpr rfl)

/-! ## Claim C6: path-prefix filtering -/

/-- The claim C6 statement: filtering a parsed diff with
`paths = ["src/a"]` keeps exactly the files whose path equals `"src/a"` or
starts with `"src/a/"`; in particular `"src/a.ts"` is excluded and
`"src/a/b.ts"` is included. -/
theorem c6_path_filter (eng : RegexEngine) (d : String) :
    filterDiffFiles eng (parseUnifiedDiff d) { paths := some ["src/a"] }
        = (parseUnifiedDiff d).filter
            (fun f => f.path == "src/a" || jsStartsWith f.path "src/a/")
      ∧ (∀ f ∈ parseUnifiedDiff d, f.path = "src/a.ts" →
          f ∉ filterDiffFiles eng (parseUnifiedDiff d) { paths := some ["src/a"] })
      ∧ (∀ f ∈ parseUnifiedDiff d, f.path = "src/a/b.ts" →
          f ∈ filterDiffFiles eng (parseUnifiedDiff d) { paths := some ["src/a"] }) := by
  have hmain : filterDiffFiles eng (parseUnifiedDiff d) { paths := some ["src/a"] }
      = (parseUnifiedDiff d).filter
          (fun f => f.path == "src/a" || jsStartsWith f.path "src/a/") := by
    rw [filterDiffFiles_eq]
    have hgrep : compileGrep eng ({ paths := some ["src/a"] } : FilterOptions).grep = none := rfl
    rw [hgrep]
    have hmapid : ∀ f : DiffFile, mapFileHunks eng { paths := some ["src/a"] } f = f := by
      intro f
      unfold mapFileHunks
      have hfm : f.hunks.filterMap (hunkPipeline eng ({ paths := some ["src/a"] } : FilterOptions))
          = f.hunks := filterMap_id_of_mem (fun a _ => rfl)
      rw [hfm]
    have hstage : pathStage { paths := some ["src/a"] } (parseUnifiedDiff d)
        = (parseUnifiedDiff d).filter (pathMatches ["src/a"]) := rfl
    rw [hstage, map_id_of_mem (fun f _ => hmapid f)]
    rw [List.filter_eq_self.mpr ?keep]
    case keep =>
      intro f hf
      have hgood := parse_good_files d f (List.mem_filter.mp hf).1
      unfold fileKeep
      have : f.headerLines ≠ [] := hgood.1
      simp [List.isEmpty_iff, this]
    apply List.filter_congr
    intro f _
    simp only [pathMatches, List.any_cons, List.any_nil, Bool.or_false]
    rw [show ("src/a" ++ "/" : String) = "src/a/" from rfl]
  refine ⟨hmain, ?_, ?_⟩
  · intro f hf hpath
    rw [hmain]
    intro hmem
    have hpred := (List.mem_filter.mp hmem).2
    rw [hpath] at hpred
    simp only [Bool.or_eq_true] at hpred
    rcases hpred with hpred | hpred
    · exact absurd hpred (by decide)
    · exact absurd hpred (by decide)
  · intro f hf hpath
    rw [hmain]
    refine List.mem_filter.mpr ⟨hf, ?_⟩
    rw [hpath]
    decide

/-- Witness for C6 at a concrete parsed diff holding both a `src/a.ts`
file and a `src/a/b.ts` file. -/
theorem c6_witness :
    ({ path := "src/a/b.ts", headerLines := ["diff --git a/src/a/b.ts b/src/a/b.ts"],
       hunks := [] } : DiffFile)
      ∈ filterDiffFiles litRegexEngine
          (parseUnifiedDiff
            "diff --git a/src/a.ts b/src/a.ts\ndiff --git a/src/a/b.ts b/src/a/b.ts")
          { paths := some ["src/a"] }
      ∧ ({ path := "src/a.ts", headerLines := ["diff --git a/src/a.ts b/src/a.ts"],
           hunks := [] } : DiffFile)
        ∉ filterDiffFiles litRegexEngine
            (parseUnifiedDiff
              "diff --git a/src/a.ts b/src/a.ts\ndiff --git a/src/a/b.ts b/src/a/b.ts")
            { paths := some ["src/a"] } := by
  have hparse : parseUnifiedDiff
      "diff --git a/src/a.ts b/src/a.ts\ndiff --git a/src/a/b.ts b/src/a/b.ts"
      = [{ path := "src/a.ts", headerLines := ["diff --git a/src/a.ts b/src/a.ts"], hunks := [] },
         { path := "src/a/b.ts", headerLines := ["diff --git a/src/a/b.ts b/src/a/b.ts"],
           hunks := [] }] := by decide
  constructor
  · exact (c6_path_filter litRegexEngine
      "diff --git a/src/a.ts b/src/a.ts\ndiff --git a/src/a/b.ts b/src/a/b.ts").2.2
      _ (by rw [hparse]; exact List.mem_cons_of_mem _ (List.mem_singleton.mpr rfl)) rfl
  · exact (c6_path_filter litRegexEngine
      "diff --git a/src/a.ts b/src/a.ts\ndiff --git a/src/a/b.ts b/src/a/b.ts").2.1
      _ (by rw [hparse]; exact List.mem_cons_self _ _) rfl

/-! ## Claim C5: range-slice boundaries -/

theorem filterMap_congr_mem {α β : Type} {f g : α → Option β} {l : List α}
    (h : ∀ a ∈ l, f a = g a) : l.filterMap f = l.filterMap g := by
  induction l with
  | nil => rfl
  | cons x xs ih =>
    rw [List.filterMap_cons, List.filterMap_cons, h x (List.mem_cons_self x xs),
      ih (fun a ha => h a (List.mem_cons_of_mem x ha))]

/-- What `sliceByRange` keeps of one replayed line. -/
def sliceKeepLine (lr : LineRange) (e : ReplayEntry) : Option String :=
  match e.kind with
  | .hunkHeader => some e.text
  | .added => if lr.start ≤ e.newNo ∧ e.newNo ≤ lr.stop then some e.text else none
  | .context => if lr.start ≤ e.newNo ∧ e.newNo ≤ lr.stop then some e.text else none
  | _ => none

/-- Does one replayed line make `sliceByRange` record a content hit? -/
def sliceHit (lr : LineRange) (e : ReplayEntry) : Bool :=
  match e.kind with
  | .added => decide (lr.start ≤ e.newNo ∧ e.newNo ≤ lr.stop)
  | .context => decide (lr.start ≤ e.newNo ∧ e.newNo ≤ lr.stop)
  | _ => false

/-- The slice walk is exactly the replay: collected lines are the headers
plus the in-range added/context lines, and `hasAny` records whether any
added/context line was in range. -/
theorem sliceLoop_spec (lr : LineRange) (lines : List String) :
    ∀ o n acc b, sliceLoop lr lines o n acc b
      = (acc ++ (replayLoop lines o n).filterMap (sliceKeepLine lr),
         b || (replayLoop lines o n).any (sliceHit lr)) := by
  induction lines with
  | nil =>
    intro o n acc b
    simp [sliceLoop, replayLoop]
  | cons line rest ih =>
    intro o n acc b
    rcases classify_spec line with ⟨h1, hc⟩ | ⟨h1, h2, hc⟩ | ⟨h1, h2, h3, hc⟩
      | ⟨h1, h2, h3, h4, hc⟩ | ⟨h1, h2, h3, h4, hc⟩
    · simp only [sliceLoop, h1, if_pos, replayLoop, hc]
      rw [ih]
      simp [sliceKeepLine, sliceHit]
    · simp only [sliceLoop, h1, Bool.false_eq_true, if_false, h2, if_pos, replayLoop, hc]
      by_cases hin : lr.start ≤ n ∧ n ≤ lr.stop
      · rw [if_pos hin, ih]
        simp [sliceKeepLine, sliceHit, hin]
      · rw [if_neg hin, ih]
        simp [sliceKeepLine, sliceHit, hin]
    · simp only [sliceLoop, h1, h2, h3, Bool.false_eq_true, if_false, if_pos, replayLoop, hc]
      rw [ih]
      simp [sliceKeepLine, sliceHit]
    · simp only [sliceLoop, h1, h2, h3, h4, Bool.false_eq_true, if_false, if_pos, replayLoop, hc]
      by_cases hin : lr.start ≤ n ∧ n ≤ lr.stop
      · rw [if_pos hin, ih]
        simp [sliceKeepLine, sliceHit, hin]
      · rw [if_neg hin, ih]
        simp [sliceKeepLine, sliceHit, hin]
    · simp only [sliceLoop, h1, h2, h3, h4, Bool.false_eq_true, if_false, replayLoop, hc]
      rw [ih]
      simp [sliceKeepLine, sliceHit]

/-- The new-side counter touches consecutive numbers: the added/context
entries of a replay carry the new numbers `n, n+1, …` in order. -/
theorem replay_touched_range (lines : List String) :
    ∀ o n, ∃ k,
      ((replayLoop lines o n).filter
        (fun e => decide (e.kind = LineKind.added) || decide (e.kind = LineKind.context))).map
          (fun e => e.newNo) = List.range' n k := by
  induction lines with
  | nil =>
    intro o n
    exact ⟨0, by simp [replayLoop]⟩
  | cons line rest ih =>
    intro o n
    rcases hcl : classifyLine line with - | - | - | - | -
    all_goals simp only [replayLoop, hcl]
    · rcases ih o n with ⟨k, hk⟩
      exact ⟨k, by simpa [List.filter_cons] using hk⟩
    · rcases ih o (n + 1) with ⟨k, hk⟩
      refine ⟨k + 1, ?_⟩
      rw [List.filter_cons]
      simp only [decide_eq_true_eq]
      rw [if_pos (by simp)]
      rw [List.map_cons, hk]
      rfl
    · rcases ih (o + 1) n with ⟨k, hk⟩
      exact ⟨k, by simpa [List.filter_cons] using hk⟩
    · rcases ih (o + 1) (n + 1) with ⟨k, hk⟩
      refine ⟨k + 1, ?_⟩
      rw [List.filter_cons]
      simp only [decide_eq_true_eq]
      rw [if_pos (by simp)]
      rw [List.map_cons, hk]
      rfl
    · rcases ih o n with ⟨k, hk⟩
      exact ⟨k, by simpa [List.filter_cons] using hk⟩

/-- Two added/context entries of the same hunk replay with the same
new-side line number are the same entry. -/
theorem touched_newNo_inj {h : DiffHunk} {e1 e2 : ReplayEntry}
    (h1 : e1 ∈ hunkReplay h) (k1 : e1.kind = .added ∨ e1.kind = .context)
    (h2 : e2 ∈ hunkReplay h) (k2 : e2.kind = .added ∨ e2.kind = .context)
    (heq : e1.newNo = e2.newNo) : e1 = e2 := by
  rcases replay_touched_range h.lines h.oldStart h.newStart with ⟨k, hk⟩
  have hnodup : (((hunkReplay h).filter
      (fun e => decide (e.kind = LineKind.added) || decide (e.kind = LineKind.context))).map
        (fun e => e.newNo)).Nodup := by
    rw [show hunkReplay h = replayLoop h.lines h.oldStart h.newStart from rfl, hk]
    exact List.nodup_range' _ _
  have hm1 : e1 ∈ (hunkReplay h).filter
      (fun e => decide (e.kind = LineKind.added) || decide (e.kind = LineKind.context)) :=
    List.mem_filter.mpr ⟨h1, by rcases k1 with k1 | k1 <;> simp [k1]⟩
  have hm2 : e2 ∈ (hunkReplay h).filter
      (fun e => decide (e.kind = LineKind.added) || decide (e.kind = LineKind.context)) :=
    List.mem_filter.mpr ⟨h2, by rcases k2 with k2 | k2 <;> simp [k2]⟩
  exact List.inj_on_of_nodup_map hnodup hm1 hm2 heq

/-- Counterexample to claim C5 as stated: a hunk with `newStart = 10`
whose only added line is at new line 15 but which carries a trailing
context line at new line 16 is not removed by
`lineRange = {start: 16, end: 20}`. -/
theorem c5_counterexample :
    ({ header := "@@ -10,7 +10,8 @@",
       lines := ["@@ -10,7 +10,8 @@", " c10", " c11", " c12", " c13", " c14", "+a15", " c16"],
       oldStart := 10, newStart := 10 } : DiffHunk).newStart = 10
      ∧ addedEntries
          { header := "@@ -10,7 +10,8 @@",
            lines := ["@@ -10,7 +10,8 @@", " c10", " c11", " c12", " c13", " c14", "+a15", " c16"],
            oldStart := 10, newStart := 10 } = [("+a15", 15)]
      ∧ sliceByRange (some { start := 16, stop := 20 })
          { header := "@@ -10,7 +10,8 @@",
            lines := ["@@ -10,7 +10,8 @@", " c10", " c11", " c12", " c13", " c14", "+a15", " c16"],
            oldStart := 10, newStart := 10 } ≠ none := by
  refine ⟨rfl, by decide, ?_⟩
  decide

/-- Replay entries come from the line list and carry their line's
classification. -/
theorem replay_mem_spec (lines : List String) :
    ∀ o n, ∀ e ∈ replayLoop lines o n, e.text ∈ lines ∧ e.kind = classifyLine e.text := by
  induction lines with
  | nil =>
    intro o n e he
    simp [replayLoop] at he
  | cons line rest ih =>
    intro o n e he
    rcases hcl : classifyLine line with - | - | - | - | -
    all_goals
      rw [replayLoop, hcl] at he
      rcases List.mem_cons.mp he with he | he
    all_goals
      first
      | (subst he; exact ⟨List.mem_cons_self _ _, hcl.symm⟩)
      | (rcases ih _ _ e he with ⟨h1, h2⟩; exact ⟨List.mem_cons_of_mem _ h1, h2⟩)

theorem classify_header_starts {l : String} (h : classifyLine l = .hunkHeader) :
    jsStartsWith l "@@" = true := by
  rcases classify_spec l with ⟨h1, -⟩ | ⟨-, -, hc⟩ | ⟨-, -, -, hc⟩ | ⟨-, -, -, -, hc⟩
    | ⟨-, -, -, -, hc⟩
  · exact h1
  all_goals rw [h] at hc; exact absurd hc (by simp)

/-- Claim C5 amended: for a hunk (header first, no other `@@`-prefixed
lines) with `newStart = 10` whose only added line is at new line 15,
slicing with `{start: 15, end: 15}` retains exactly the header plus that
line; slicing with `{start: 16, end: 20}` removes the hunk provided —
this is the amendment — no context line lies at a new line in 16..20. -/
theorem c5_range_slice (h : DiffHunk) (hdr a : String) (body : List String)
    (hlines : h.lines = hdr :: body)
    (hhdr : jsStartsWith hdr "@@" = true)
    (hbody : ∀ l ∈ body, jsStartsWith l "@@" = false)
    (_hstart : h.newStart = 10)
    (hadded : addedEntries h = [(a, 15)]) :
    sliceByRange (some { start := 15, stop := 15 }) h = some { h with lines := [hdr, a] }
      ∧ ((∀ c ∈ contextNewLines h, c < 16 ∨ 20 < c) →
          sliceByRange (some { start := 16, stop := 20 }) h = none) := by
  have hhdrcl : classifyLine hdr = .hunkHeader := by
    unfold classifyLine
    rw [hhdr]
    simp
  have hreplay : hunkReplay h
      = { text := hdr, kind := .hunkHeader, oldNo := h.oldStart, newNo := h.newStart }
          :: replayLoop body h.oldStart h.newStart := by
    unfold hunkReplay
    rw [hlines]
    simp [replayLoop, hhdrcl]
  have hbody_no_hdr : ∀ e ∈ replayLoop body h.oldStart h.newStart,
      e.kind ≠ LineKind.hunkHeader := by
    intro e he hk
    rcases replay_mem_spec body h.oldStart h.newStart e he with ⟨htx, hkc⟩
    rw [hk] at hkc
    exact absurd (classify_header_starts hkc.symm) (by rw [hbody e.text htx]; simp)
  -- the unique added entry
  have haddmem : ∃ eA ∈ hunkReplay h, eA.kind = .added ∧ eA.text = a ∧ eA.newNo = 15 := by
    have hm : (a, 15) ∈ addedEntries h := by rw [hadded]; exact List.mem_singleton.mpr rfl
    rcases List.mem_filterMap.mp hm with ⟨e, he, hee⟩
    by_cases hk : e.kind = LineKind.added
    · simp only [if_pos hk, Option.some.injEq, Prod.mk.injEq] at hee
      exact ⟨e, he, hk, hee.1, hee.2⟩
    · rw [if_neg hk] at hee
      exact absurd hee (by simp)
  rcases haddmem with ⟨eA, heA, hkA, htA, hnA⟩
  -- every added entry of the replay is that one
  have hall_added : ∀ e ∈ hunkReplay h, e.kind = .added → e.text = a ∧ e.newNo = 15 := by
    intro e he hk
    have hmem : (e.text, e.newNo) ∈ addedEntries h := by
      refine List.mem_filterMap.mpr ⟨e, he, ?_⟩
      rw [if_pos hk]
    rw [hadded] at hmem
    have hsing := List.mem_singleton.mp hmem
    exact ⟨congrArg Prod.fst hsing, congrArg Prod.snd hsing⟩
  -- no context entry at new line 15
  have hctx15 : ∀ e ∈ hunkReplay h, e.kind = .context → e.newNo ≠ 15 := by
    intro e he hk hn15
    have heqA : e = eA :=
      touched_newNo_inj he (Or.inr hk) heA (Or.inl hkA) (by rw [hn15, hnA])
    rw [heqA, hkA] at hk
    exact absurd hk (by simp)
  have hrepl_eq : replayLoop h.lines h.oldStart h.newStart = hunkReplay h := rfl
  constructor
  · -- slice {15,15}: keeps exactly the header and the added line
    have hany : (hunkReplay h).any (sliceHit { start := 15, stop := 15 }) = true := by
      refine List.any_eq_true.mpr ⟨eA, heA, ?_⟩
      simp [sliceHit, hkA, hnA]
    have hbodyfm : (replayLoop body h.oldStart h.newStart).filterMap
        (sliceKeepLine { start := 15, stop := 15 }) = [a] := by
      have hpoint : ∀ e ∈ replayLoop body h.oldStart h.newStart,
          sliceKeepLine { start := 15, stop := 15 } e
            = (if e.kind = LineKind.added then some (e.text, e.newNo) else none).bind
                (fun p => if 15 ≤ p.2 ∧ p.2 ≤ 15 then some p.1 else none) := by
        intro e he
        have hemem : e ∈ hunkReplay h := by rw [hreplay]; exact List.mem_cons_of_mem _ he
        rcases hek : e.kind with - | - | - | - | -
        · exact absurd hek (hbody_no_hdr e he)
        · simp [sliceKeepLine, hek]
        · simp [sliceKeepLine, hek]
        · have hne := hctx15 e hemem hek
          simp only [sliceKeepLine, hek]
          rw [if_neg (show ¬(15 ≤ e.newNo ∧ e.newNo ≤ 15) by omega)]
          simp
        · simp [sliceKeepLine, hek]
      rw [filterMap_congr_mem hpoint, ← List.filterMap_filterMap]
      have hadd_body : (replayLoop body h.oldStart h.newStart).filterMap
          (fun e => if e.kind = LineKind.added then some (e.text, e.newNo) else none)
          = [(a, 15)] := by
        have hsplit : addedEntries h
            = (replayLoop body h.oldStart h.newStart).filterMap
                (fun e => if e.kind = LineKind.added then some (e.text, e.newNo) else none) := by
          unfold addedEntries
          rw [hreplay, List.filterMap_cons]
          simp
        rw [← hsplit, hadded]
      rw [hadd_body]
      simp
    have hcollected : (hunkReplay h).filterMap (sliceKeepLine { start := 15, stop := 15 })
        = [hdr, a] := by
      rw [hreplay, List.filterMap_cons]
      simp only [sliceKeepLine]
      rw [hbodyfm]
    have hslice : sliceLoop { start := 15, stop := 15 } h.lines h.oldStart h.newStart [] false
        = ([hdr, a], true) := by
      rw [sliceLoop_spec, hrepl_eq, hcollected, hany]
      simp
    simp only [sliceByRange, hslice]
    simp
  · -- slice {16,20}: nothing hits
    intro hctx
    have hany : (hunkReplay h).any (sliceHit { start := 16, stop := 20 }) = false := by
      rw [← Bool.not_eq_true, List.any_eq_true]
      rintro ⟨e, he, hhit⟩
      rcases hek : e.kind with - | - | - | - | -
      · simp [sliceHit, hek] at hhit
      · rcases hall_added e he hek with ⟨-, hn⟩
        rw [sliceHit, hek] at hhit
        simp only [decide_eq_true_eq] at hhit
        omega
      · simp [sliceHit, hek] at hhit
      · have hcm : e.newNo ∈ contextNewLines h := by
          refine List.mem_filterMap.mpr ⟨e, he, ?_⟩
          rw [if_pos hek]
        have := hctx e.newNo hcm
        rw [sliceHit, hek] at hhit
        simp only [decide_eq_true_eq] at hhit
        omega
      · simp [sliceHit, hek] at hhit
    have hslice : (sliceLoop { start := 16, stop := 20 } h.lines h.oldStart h.newStart [] false).2
        = false := by
      rw [sliceLoop_spec, hrepl_eq]
      simp [hany]
    simp only [sliceByRange]
    rw [if_neg (by rw [hslice]; simp)]

/-- Witness for C5 amended at the concrete hunk of the spec's scenario. -/
theorem c5_witness :
    sliceByRange (some { start := 15, stop := 15 })
        { header := "@@ -10,6 +10,7 @@",
          lines := ["@@ -10,6 +10,7 @@", " c10", " c11", " c12", " c13", " c14", "+a15"],
          oldStart := 10, newStart := 10 }
        = some { header := "@@ -10,6 +10,7 @@", lines := ["@@ -10,6 +10,7 @@", "+a15"],
                 oldStart := 10, newStart := 10 }
      ∧ sliceByRange (some { start := 16, stop := 20 })
          { header := "@@ -10,6 +10,7 @@",
            lines := ["@@ -10,6 +10,7 @@", " c10", " c11", " c12", " c13", " c14", "+a15"],
            oldStart := 10, newStart := 10 } = none := by
  have hc := c5_range_slice
    { header := "@@ -10,6 +10,7 @@",
      lines := ["@@ -10,6 +10,7 @@", " c10", " c11", " c12", " c13", " c14", "+a15"],
      oldStart := 10, newStart := 10 }
    "@@ -10,6 +10,7 @@" "+a15" [" c10", " c11", " c12", " c13", " c14", "+a15"]
    rfl (by decide) (by decide) rfl (by decide)
  exact ⟨hc.1, hc.2 (by decide)⟩

/-! ## Claim C2: filter idempotence

The range slice renumbers against the original `newStart`, so re-slicing
an already-sliced hunk shifts every line's replayed number; idempotence
fails whenever `lineRange` is set (counterexample below) but holds for
every other option combination, including a grep with context expansion.
The grep case needs the index bookkeeping developed here: positions in the
filtered line list are the kept-counts of the original positions, and
distances between positions can only shrink. -/

/-- Select the elements whose (offset) index satisfies `q`: the
`filter((_, index) => q index)` of the source, in recursive form. -/
def selIdx {α : Type} (q : Nat → Bool) : Nat → List α → List α
  | _, [] => []
  | k, x :: xs => if q k then x :: selIdx q (k + 1) xs else selIdx q (k + 1) xs

/-- Indices (from an offset) of the elements satisfying `g`. -/
def idxWhere {α : Type} (g : α → Bool) : Nat → List α → List Nat
  | _, [] => []
  | k, x :: xs => if g x then k :: idxWhere g (k + 1) xs else idxWhere g (k + 1) xs

/-- Number of indices in `[k, k+i)` satisfying `q`. -/
def cntFrom (q : Nat → Bool) : Nat → Nat → Nat
  | _, 0 => 0
  | k, i + 1 => (if q k then 1 else 0) + cntFrom q (k + 1) i

theorem enum_idxWhere {α : Type} (g : α → Bool) (l : List α) :
    ∀ k, ((List.enumFrom k l).filter (fun p => g p.2)).map (fun p => p.1) = idxWhere g k l := by
  induction l with
  | nil => intro k; rfl
  | cons x xs ih =>
    intro k
    rw [show List.enumFrom k (x :: xs) = (k, x) :: List.enumFrom (k + 1) xs from rfl,
      List.filter_cons]
    unfold idxWhere
    by_cases hg : g x = true
    · rw [if_pos hg, if_pos hg, List.map_cons, ih]
    · rw [if_neg hg, if_neg hg, ih]

theorem enum_selIdx {α : Type} (q : Nat → Bool) (l : List α) :
    ∀ k, ((List.enumFrom k l).filter (fun p => q p.1)).map (fun p => p.2) = selIdx q k l := by
  induction l with
  | nil => intro k; rfl
  | cons x xs ih =>
    intro k
    rw [show List.enumFrom k (x :: xs) = (k, x) :: List.enumFrom (k + 1) xs from rfl,
      List.filter_cons]
    unfold selIdx
    by_cases hq : q k = true
    · rw [if_pos hq, if_pos hq, List.map_cons, ih]
    · rw [if_neg hq, if_neg hq, ih]

theorem idxWhere_mem_iff {α : Type} (g : α → Bool) (l : List α) :
    ∀ k j, j ∈ idxWhere g k l ↔ ∃ x, k ≤ j ∧ l.get? (j - k) = some x ∧ g x = true := by
  induction l with
  | nil =>
    intro k j
    simp [idxWhere]
  | cons x xs ih =>
    intro k j
    constructor
    · intro hj
      unfold idxWhere at hj
      by_cases hg : g x
      · rw [if_pos hg] at hj
        rcases List.mem_cons.mp hj with hj | hj
        · subst hj
          exact ⟨x, le_refl _, by simp, hg⟩
        · rcases (ih (k + 1) j).mp hj with ⟨y, hk1, hget, hgy⟩
          refine ⟨y, by omega, ?_, hgy⟩
          rw [show j - k = (j - (k + 1)) + 1 by omega]
          simpa using hget
      · rw [if_neg hg] at hj
        rcases (ih (k + 1) j).mp hj with ⟨y, hk1, hget, hgy⟩
        refine ⟨y, by omega, ?_, hgy⟩
        rw [show j - k = (j - (k + 1)) + 1 by omega]
        simpa using hget
    · rintro ⟨y, hkj, hget, hgy⟩
      unfold idxWhere
      by_cases hjk : j = k
      · subst hjk
        simp only [Nat.sub_self, List.get?_cons_zero, Option.some.injEq] at hget
        subst hget
        rw [if_pos hgy]
        exact List.mem_cons_self _ _
      · have hlt : k + 1 ≤ j := by omega
        have hget' : xs.get? (j - (k + 1)) = some y := by
          rw [show j - k = (j - (k + 1)) + 1 by omega] at hget
          simpa using hget
        have hrec := (ih (k + 1) j).mpr ⟨y, hlt, hget', hgy⟩
        by_cases hg : g x
        · rw [if_pos hg]
          exact List.mem_cons_of_mem _ hrec
        · rw [if_neg hg]
          exact hrec

theorem cntFrom_le (q : Nat → Bool) : ∀ i k, cntFrom q k i ≤ i := by
  intro i
  induction i with
  | zero => intro k; simp [cntFrom]
  | succ i ih =>
    intro k
    unfold cntFrom
    by_cases hq : q k
    · rw [if_pos hq]
      have := ih (k + 1)
      omega
    · rw [if_neg hq]
      have := ih (k + 1)
      omega

theorem cntFrom_split (q : Nat → Bool) : ∀ m k n,
    cntFrom q k (m + n) = cntFrom q k m + cntFrom q (k + m) n := by
  intro m
  induction m with
  | zero => intro k n; simp [cntFrom]
  | succ m ih =>
    intro k n
    have h1 : cntFrom q k (m + 1 + n) = (if q k then 1 else 0) + cntFrom q (k + 1) (m + n) := by
      rw [show m + 1 + n = (m + n) + 1 by omega]
      rfl
    have h2 : cntFrom q k (m + 1) = (if q k then 1 else 0) + cntFrom q (k + 1) m := rfl
    rw [h1, h2, ih (k + 1) n, show k + (m + 1) = k + 1 + m by omega]
    omega

/-- A kept element lands in the selection at the position given by the
kept-count of the indices before it. -/
theorem selIdx_get_of {α : Type} (q : Nat → Bool) (l : List α) :
    ∀ k i x, l.get? i = some x → q (k + i) = true →
      (selIdx q k l).get? (cntFrom q k i) = some x := by
  induction l with
  | nil =>
    intro k i x hget
    simp at hget
  | cons y ys ih =>
    intro k i x hget hq
    cases i with
    | zero =>
      simp only [List.get?_cons_zero, Option.some.injEq] at hget
      subst hget
      rw [show k + 0 = k by omega] at hq
      simp [selIdx, cntFrom, hq]
    | succ i =>
      simp only [List.get?_cons_succ] at hget
      have hq' : q (k + 1 + i) = true := by rw [show k + 1 + i = k + (i + 1) by omega]; exact hq
      unfold selIdx cntFrom
      by_cases hqk : q k
      · rw [if_pos hqk, if_pos hqk,
          show 1 + cntFrom q (k + 1) i = cntFrom q (k + 1) i + 1 by omega,
          List.get?_cons_succ]
        exact ih (k + 1) i x hget hq'
      · rw [if_neg hqk, if_neg hqk,
          show 0 + cntFrom q (k + 1) i = cntFrom q (k + 1) i by omega]
        exact ih (k + 1) i x hget hq'

/-- Every position of the selection comes from a kept original index with
matching kept-count. -/
theorem selIdx_get_inv {α : Type} (q : Nat → Bool) (l : List α) :
    ∀ k j x, (selIdx q k l).get? j = some x →
      ∃ i, l.get? i = some x ∧ q (k + i) = true ∧ cntFrom q k i = j := by
  induction l with
  | nil =>
    intro k j x hget
    simp [selIdx] at hget
  | cons y ys ih =>
    intro k j x hget
    unfold selIdx at hget
    by_cases hqk : q k
    · rw [if_pos hqk] at hget
      cases j with
      | zero =>
        simp only [List.get?_cons_zero, Option.some.injEq] at hget
        subst hget
        exact ⟨0, by simp, by simpa using hqk, by simp [cntFrom]⟩
      | succ j =>
        simp only [List.get?_cons_succ] at hget
        rcases ih (k + 1) j x hget with ⟨i, hgi, hqi, hci⟩
        refine ⟨i + 1, by simpa using hgi, by rw [show k + (i + 1) = k + 1 + i by omega]; exact hqi, ?_⟩
        unfold cntFrom
        rw [if_pos hqk, hci]
        omega
    · rw [if_neg hqk] at hget
      rcases ih (k + 1) j x hget with ⟨i, hgi, hqi, hci⟩
      refine ⟨i + 1, by simpa using hgi, by rw [show k + (i + 1) = k + 1 + i by omega]; exact hqi, ?_⟩
      unfold cntFrom
      rw [if_neg hqk, hci]
      omega

/-- When every index below the length is kept, the selection is the whole
list. -/
theorem selIdx_all {α : Type} (q : Nat → Bool) (l : List α) :
    ∀ k, (∀ j, j < l.length → q (k + j) = true) → selIdx q k l = l := by
  induction l with
  | nil => intro k _; rfl
  | cons x xs ih =>
    intro k hall
    have hk : q k = true := by simpa using hall 0 (by simp)
    unfold selIdx
    rw [if_pos hk, ih (k + 1) (fun j hj => by
      rw [show k + 1 + j = k + (j + 1) by omega]
      exact hall (j + 1) (by simpa using Nat.succ_lt_succ hj))]

/-- Indices in `idxWhere g 0 l` point at matching elements. -/
theorem idxWhere_zero_mem {α : Type} {g : α → Bool} {l : List α} {m : Nat}
    (hm : m ∈ idxWhere g 0 l) : ∃ x, l.get? m = some x ∧ g x = true ∧ m < l.length := by
  rcases (idxWhere_mem_iff g l 0 m).mp hm with ⟨x, -, hget, hgx⟩
  rw [Nat.sub_zero] at hget
  refine ⟨x, hget, hgx, ?_⟩
  by_contra hlt
  rw [List.get?_eq_none.mpr (by omega)] at hget
  exact absurd hget (by simp)

/-- Core of grep idempotence: after the context selection, every position
of the selected list is itself within context of a surviving match, so a
second selection keeps everything. -/
theorem grep_selIdx_idem (g : String → Bool) (ctx : Nat) (l l' : List String) (M M' : List Nat)
    (hM : M = idxWhere g 0 l)
    (hl' : l' = selIdx (fun i => grepKeep M ctx l.length i || i == 0) 0 l)
    (hM' : M' = idxWhere g 0 l')
    (hMne : M.isEmpty = false) (hctx : ¬ctx ≤ 0) :
    M'.isEmpty = false ∧
      selIdx (fun j => grepKeep M' ctx l'.length j || j == 0) 0 l' = l' := by
  have hMne' : M ≠ [] := by
    cases M with
    | nil => simp at hMne
    | cons m ms => simp
  -- matches pass the keep test
  have hPM : ∀ m ∈ M, (grepKeep M ctx l.length m || m == 0) = true := by
    intro m hm
    rcases idxWhere_zero_mem (hM ▸ hm) with ⟨x, -, -, hlt⟩
    rw [Bool.or_eq_true]
    refine Or.inl (List.any_eq_true.mpr ⟨m, hm, ?_⟩)
    simp only [Bool.and_eq_true, decide_eq_true_eq]
    omega
  -- each match survives into l' at its kept-count position
  have hsurv : ∀ m ∈ M, ∃ x, l.get? m = some x ∧ g x = true ∧
      l'.get? (cntFrom (fun i => grepKeep M ctx l.length i || i == 0) 0 m) = some x := by
    intro m hm
    rcases idxWhere_zero_mem (hM ▸ hm) with ⟨x, hget, hgx, -⟩
    refine ⟨x, hget, hgx, ?_⟩
    rw [hl']
    exact selIdx_get_of _ l 0 m x hget (by rw [Nat.zero_add]; exact hPM m hm)
  have hmemM' : ∀ m ∈ M,
      cntFrom (fun i => grepKeep M ctx l.length i || i == 0) 0 m ∈ M' := by
    intro m hm
    rcases hsurv m hm with ⟨x, -, hgx, hget'⟩
    rw [hM']
    exact (idxWhere_mem_iff g l' 0 _).mpr ⟨x, Nat.zero_le _, by rw [Nat.sub_zero]; exact hget', hgx⟩
  constructor
  · -- M' is nonempty
    cases hMc : M with
    | nil => exact absurd hMc hMne'
    | cons m ms =>
      have hmem := hmemM' m (by rw [hMc]; exact List.mem_cons_self _ _)
      cases hM'c : M' with
      | nil => rw [hM'c] at hmem; simp at hmem
      | cons a as => simp
  · -- the second selection keeps every position
    refine selIdx_all _ l' 0 ?_
    intro j hj
    rw [Nat.zero_add]
    by_cases hj0 : j = 0
    · subst hj0
      simp
    · rw [Bool.or_eq_true]
      refine Or.inl ?_
      rcases hx : l'.get? j with - | x
      · rw [List.get?_eq_none] at hx
        omega
      · rcases selIdx_get_inv _ l 0 j x (hl' ▸ hx) with ⟨i, hgi, hPi, hci⟩
        rw [Nat.zero_add] at hPi
        have hi0 : i ≠ 0 := by
          intro hi
          subst hi
          rw [show cntFrom (fun i => grepKeep M ctx l.length i || i == 0) 0 0 = 0 from rfl] at hci
          exact hj0 hci.symm
        have hkeepi : grepKeep M ctx l.length i = true := by
          rw [Bool.or_eq_true] at hPi
          rcases hPi with hk | hk
          · exact hk
          · exact absurd (by simpa using hk) hi0
        rcases List.any_eq_true.mp hkeepi with ⟨m, hm, hcond⟩
        simp only [Bool.and_eq_true, decide_eq_true_eq] at hcond
        rcases idxWhere_zero_mem (hM ▸ hm) with ⟨y, hgy, hgyt, hmlt⟩
        -- the match's new position
        set P := fun i => grepKeep M ctx l.length i || i == 0 with hP
        have hjm := hmemM' m hm
        set jm := cntFrom P 0 m with hjm_def
        -- position distances shrink
        have hsplit : ∀ a b : Nat, a ≤ b → cntFrom P 0 b = cntFrom P 0 a + cntFrom P a (b - a) := by
          intro a b hab
          calc cntFrom P 0 b = cntFrom P 0 (a + (b - a)) := by rw [show a + (b - a) = b by omega]
            _ = cntFrom P 0 a + cntFrom P (0 + a) (b - a) := cntFrom_split P a 0 (b - a)
            _ = cntFrom P 0 a + cntFrom P a (b - a) := by rw [Nat.zero_add]
        have hdist : jm - ctx ≤ j ∧ j ≤ jm + ctx := by
          rcases Nat.le_total m i with hmi | him
          · have h1 := hsplit m i hmi
            have h2 := cntFrom_le P (i - m) m
            rw [hci] at h1
            have hictx : i - m ≤ ctx := by omega
            omega
          · have h1 := hsplit i m him
            have h2 := cntFrom_le P (m - i) i
            rw [hci] at h1
            have hictx : m - i ≤ ctx := by omega
            omega
        refine List.any_eq_true.mpr ⟨jm, hjm, ?_⟩
        simp only [Bool.and_eq_true, decide_eq_true_eq]
        constructor
        · omega
        · have hn' : 1 ≤ l'.length := by omega
          refine le_min (by omega) (by omega)

/-- Per-hunk grep idempotence: a hunk that `applyGrep` produced is left
unchanged by a second application with the same matcher and context. -/
theorem applyGrep_idem {g? : Option (String → Bool)} {ctx : Nat} {h h' : DiffHunk}
    (hs : applyGrep g? ctx h = some h') : applyGrep g? ctx h' = some h' := by
  rcases g? with - | g
  · simp only [applyGrep, Option.some.injEq] at hs
    simp [applyGrep, hs]
  · have heq : ∀ hk : DiffHunk, applyGrep (some g) ctx hk =
        (if (idxWhere g 0 hk.lines).isEmpty then none
         else if ctx ≤ 0 then some hk
         else some { hk with
                      lines := selIdx
                        (fun i =>
                          grepKeep (idxWhere g 0 hk.lines) ctx hk.lines.length i || i == 0)
                        0 hk.lines }) := by
      intro hk
      have henum : hk.lines.enum = List.enumFrom 0 hk.lines := rfl
      have hb1 : grepMatchLines g hk.lines = idxWhere g 0 hk.lines := by
        unfold grepMatchLines
        rw [henum]
        exact enum_idxWhere g hk.lines 0
      have hb2 : ((hk.lines.enum.filter
          (fun p => grepKeep (grepMatchLines g hk.lines) ctx hk.lines.length p.1 || p.1 == 0)).map
            (fun p => p.2))
          = selIdx (fun i => grepKeep (grepMatchLines g hk.lines) ctx hk.lines.length i || i == 0)
              0 hk.lines := by
        rw [henum]
        exact enum_selIdx
          (fun i => grepKeep (grepMatchLines g hk.lines) ctx hk.lines.length i || i == 0)
          hk.lines 0
      simp only [applyGrep]
      rw [hb2, hb1]
    rw [heq] at hs
    by_cases hMe : (idxWhere g 0 h.lines).isEmpty = true
    · rw [if_pos hMe] at hs
      exact absurd hs (by simp)
    · rw [if_neg hMe] at hs
      by_cases hc : ctx ≤ 0
      · rw [if_pos hc] at hs
        injection hs with hs
        subst hs
        rw [heq, if_neg hMe, if_pos hc]
      · rw [if_neg hc] at hs
        injection hs with hs
        obtain ⟨core1, core2⟩ := grep_selIdx_idem g ctx h.lines
          (selIdx (fun i => grepKeep (idxWhere g 0 h.lines) ctx h.lines.length i || i == 0)
            0 h.lines)
          (idxWhere g 0 h.lines) _ rfl rfl rfl (Bool.eq_false_iff.mpr hMe) hc
        rw [heq]
        have hlines : h'.lines = selIdx
            (fun i => grepKeep (idxWhere g 0 h.lines) ctx h.lines.length i || i == 0)
            0 h.lines := by rw [← hs]
        rw [if_neg (by rw [hlines, core1]; simp), if_neg hc]
        rw [← hs]
        simp only [Option.some.injEq]
        exact congrArg (fun L : List String => DiffHunk.mk h.header L h.oldStart h.newStart) core2

/-- Full origin data for a file in the filter output. -/
theorem filterDiffFiles_mem_strong {eng : RegexEngine} {files : List DiffFile}
    {opts : FilterOptions} {f' : DiffFile} (h : f' ∈ filterDiffFiles eng files opts) :
    (∃ f, f ∈ pathStage opts files ∧ f' = mapFileHunks eng opts f)
      ∧ fileKeep f' = true
      ∧ (∀ gm, compileGrep eng opts.grep = some gm → f'.hunks ≠ []) := by
  rw [filterDiffFiles_eq] at h
  rcases hg : compileGrep eng opts.grep with - | gm
  · rw [hg] at h
    rcases List.mem_filter.mp h with ⟨hmap, hkeep⟩
    rcases List.mem_map.mp hmap with ⟨f, hf, heq⟩
    exact ⟨⟨f, hf, heq.symm⟩, hkeep, fun gm hgm => Option.noConfusion hgm⟩
  · rw [hg] at h
    rcases List.mem_filter.mp h with ⟨h1, hne⟩
    rcases List.mem_filter.mp h1 with ⟨hmap, hkeep⟩
    rcases List.mem_map.mp hmap with ⟨f, hf, heq⟩
    refine ⟨⟨f, hf, heq.symm⟩, hkeep, fun gm' hgm' hcon => ?_⟩
    rw [hcon] at hne
    simp at hne

/-- Counterexample to claim C2 as stated: with `lineRange = {15,15}` the
second filter pass replays the already-sliced hunk from `newStart` again,
assigns the kept line a different number, and drops the hunk. -/
theorem c2_counterexample :
    filterDiffFiles litRegexEngine
        (filterDiffFiles litRegexEngine
          (parseUnifiedDiff "diff --git a/f b/f\n@@ -10,6 +10,7 @@\n c10\n c11\n c12\n c13\n c14\n+a15")
          { lineRange := some { start := 15, stop := 15 } })
        { lineRange := some { start := 15, stop := 15 } }
      ≠ filterDiffFiles litRegexEngine
          (parseUnifiedDiff "diff --git a/f b/f\n@@ -10,6 +10,7 @@\n c10\n c11\n c12\n c13\n c14\n+a15")
          { lineRange := some { start := 15, stop := 15 } } := by
  decide

/-- Claim C2 amended: `filterDiffFiles` is idempotent for every option
combination without a `lineRange` (any `paths`, any grep matcher, any
`grepContext`); with a `lineRange` the slice renumbers against the original
`newStart` and idempotence fails. -/
theorem c2_filter_idempotent (eng : RegexEngine) (files : List DiffFile) (opts : FilterOptions)
    (hlr : opts.lineRange = none) :
    filterDiffFiles eng (filterDiffFiles eng files opts) opts
      = filterDiffFiles eng files opts := by
  have hpipe : ∀ hk : DiffHunk, hunkPipeline eng opts hk
      = applyGrep (compileGrep eng opts.grep) (opts.grepContext.getD 0) hk := by
    intro hk
    unfold hunkPipeline
    rw [hlr]
    rfl
  have hself : ∀ f' ∈ filterDiffFiles eng files opts, mapFileHunks eng opts f' = f' := by
    intro f' hf'
    obtain ⟨⟨f, -, hfeq⟩, -, -⟩ := filterDiffFiles_mem_strong hf'
    have hhunks : ∀ h' ∈ f'.hunks, hunkPipeline eng opts h' = some h' := by
      intro h' hh'
      have hh2 : h' ∈ f.hunks.filterMap (hunkPipeline eng opts) := by
        rw [hfeq] at hh'
        simpa [mapFileHunks] using hh'
      rcases List.mem_filterMap.mp hh2 with ⟨h0, -, hp0⟩
      rw [hpipe] at hp0 ⊢
      exact applyGrep_idem hp0
    show { f' with hunks := f'.hunks.filterMap (hunkPipeline eng opts) } = f'
    rw [filterMap_id_of_mem hhunks]
  have hpath1 : pathStage opts (filterDiffFiles eng files opts)
      = filterDiffFiles eng files opts := by
    unfold pathStage
    rcases hp : opts.paths with - | ps
    · rfl
    · show (if (!ps.isEmpty) = true
          then List.filter (pathMatches ps) (filterDiffFiles eng files opts)
          else filterDiffFiles eng files opts) = filterDiffFiles eng files opts
      by_cases hne : (!ps.isEmpty) = true
      · rw [if_pos hne]
        refine List.filter_eq_self.mpr ?_
        intro f' hf'
        obtain ⟨⟨f, hfstage, rfl⟩, -, -⟩ := filterDiffFiles_mem_strong hf'
        unfold pathStage at hfstage
        rw [hp] at hfstage
        simp only at hfstage
        rw [if_pos hne] at hfstage
        exact (List.mem_filter.mp hfstage).2
      · rw [if_neg hne]
  have hmap1 : (filterDiffFiles eng files opts).map (mapFileHunks eng opts)
      = filterDiffFiles eng files opts := map_id_of_mem hself
  have hkeep1 : (filterDiffFiles eng files opts).filter fileKeep
      = filterDiffFiles eng files opts :=
    List.filter_eq_self.mpr (fun f' hf' => (filterDiffFiles_mem_strong hf').2.1)
  rw [filterDiffFiles_eq eng (filterDiffFiles eng files opts) opts]
  rcases hg : compileGrep eng opts.grep with - | gm
  · rw [hpath1, hmap1, hkeep1]
  · rw [hpath1, hmap1, hkeep1]
    refine List.filter_eq_self.mpr ?_
    intro f' hf'
    have := (filterDiffFiles_mem_strong hf').2.2 gm hg
    simpa using this

/-- Witness for C2 amended: a concrete diff filtered twice with a path
list, a grep with context, and no line range. -/
theorem c2_witness :
    filterDiffFiles litRegexEngine
        (filterDiffFiles litRegexEngine
          (parseUnifiedDiff "diff --git a/f b/f\n@@ -10,6 +10,7 @@\n c10\n c11\n c12\n c13\n c14\n+a15")
          { paths := some ["f"], grep := some "a15", grepContext := some 2 })
        { paths := some ["f"], grep := some "a15", grepContext := some 2 }
      = filterDiffFiles litRegexEngine
          (parseUnifiedDiff "diff --git a/f b/f\n@@ -10,6 +10,7 @@\n c10\n c11\n c12\n c13\n c14\n+a15")
          { paths := some ["f"], grep := some "a15", grepContext := some 2 } :=
  c2_filter_idempotent litRegexEngine
    (parseUnifiedDiff "diff --git a/f b/f\n@@ -10,6 +10,7 @@\n c10\n c11\n c12\n c13\n c14\n+a15")
    { paths := some ["f"], grep := some "a15", grepContext := some 2 } rfl

/-! ## Line counting for the renderer -/

@[simp]
theorem addBlock_blocks (s : RenderState) (t : String) : (addBlock s t).blocks = s.blocks ++ [t] := rfl

@[simp]
theorem addBlock_shownLines (s : RenderState) (t : String) : (addBlock s t).shownLines = s.shownLines + countLines t := rfl

@[simp]
theorem addBlock_shownHunks (s : RenderState) (t : String) : (addBlock s t).shownHunks = s.shownHunks := rfl

@[simp]
theorem addBlock_shownFiles (s : RenderState) (t : String) : (addBlock s t).shownFiles = s.shownFiles := rfl

@[simp]
theorem addBlock_truncated (s : RenderState) (t : String) : (addBlock s t).truncated = s.truncated := rfl

@[simp]
theorem addBlock_suggestedRanges (s : RenderState) (t : String) : (addBlock s t).suggestedRanges = s.suggestedRanges := rfl

@[simp]
theorem addBlock_diffBlocks (s : RenderState) (t : String) : (addBlock s t).diffBlocks = s.diffBlocks := rfl

@[simp]
theorem addDiffBlock_blocks (s : RenderState) (t : String) : (addDiffBlock s t).blocks = s.blocks := by
  unfold addDiffBlock
  split <;> rfl

@[simp]
theorem addDiffBlock_shownLines (s : RenderState) (t : String) : (addDiffBlock s t).shownLines = s.shownLines := by
  unfold addDiffBlock
  split <;> rfl

@[simp]
theorem addDiffBlock_shownHunks (s : RenderState) (t : String) : (addDiffBlock s t).shownHunks = s.shownHunks := by
  unfold addDiffBlock
  split <;> rfl

@[simp]
theorem addDiffBlock_shownFiles (s : RenderState) (t : String) : (addDiffBlock s t).shownFiles = s.shownFiles := by
  unfold addDiffBlock
  split <;> rfl

@[simp]
theorem addDiffBlock_truncated (s : RenderState) (t : String) : (addDiffBlock s t).truncated = s.truncated := by
  unfold addDiffBlock
  split <;> rfl

@[simp]
theorem addDiffBlock_suggestedRanges (s : RenderState) (t : String) : (addDiffBlock s t).suggestedRanges = s.suggestedRanges := by
  unfold addDiffBlock
  split <;> rfl

theorem splitLinesList_ne_nil (cs : List Char) : splitLinesList cs ≠ [] := by
  cases cs with
  | nil => simp [splitLinesList]
  | cons c cs =>
    unfold splitLinesList
    by_cases hc : c = '\n'
    · rw [if_pos hc]
      simp
    · rw [if_neg hc]
      rcases hr : splitLinesList cs with - | ⟨r, rs⟩
      · simp
      · simp

theorem splitLinesList_length (cs : List Char) :
    (splitLinesList cs).length = cs.count '\n' + 1 := by
  induction cs with
  | nil => rfl
  | cons c cs ih =>
    unfold splitLinesList
    by_cases hc : c = '\n'
    · rw [if_pos hc, hc]
      simp only [List.length_cons, ih, List.count_cons]
      simp
    · rw [if_neg hc]
      rcases hr : splitLinesList cs with - | ⟨r, rs⟩
      · exact absurd hr (splitLinesList_ne_nil cs)
      · rw [hr] at ih
        simp only [List.length_cons] at ih ⊢
        rw [List.count_cons]
        simp only [ih]
        have hcc : (c == '\n') = false := by
          simp only [beq_eq_false_iff_ne, ne_eq]
          exact hc
        rw [hcc]
        simp

theorem countLines_eq_count (s : String) : countLines s = s.data.count '\n' + 1 := by
  unfold countLines splitLines
  rw [List.length_map]
  exact splitLinesList_length s.data

theorem count_newline_of_noNewline {s : String} (h : noNewline s = true) :
    s.data.count '\n' = 0 := by
  rw [List.count_eq_zero]
  intro hm
  have := (List.all_eq_true.mp h) '\n' hm
  simp at this

theorem countLines_of_noNewline {s : String} (h : noNewline s = true) : countLines s = 1 := by
  rw [countLines_eq_count, count_newline_of_noNewline h]

theorem count_join_newline (l : List String) (h : ∀ x ∈ l, noNewline x = true) :
    (jsJoin "\n" l).data.count '\n' = l.length - 1 := by
  induction l with
  | nil => rfl
  | cons x xs ih =>
    cases xs with
    | nil =>
      simp only [jsJoin, List.length_singleton]
      rw [count_newline_of_noNewline (h x (List.mem_singleton.mpr rfl))]
    | cons y ys =>
      rw [show jsJoin "\n" (x :: y :: ys) = x ++ "\n" ++ jsJoin "\n" (y :: ys) from rfl]
      rw [String.data_append, String.data_append, List.count_append, List.count_append]
      rw [count_newline_of_noNewline (h x (List.mem_cons_self _ _))]
      rw [ih (fun z hz => h z (List.mem_cons_of_mem _ hz))]
      have h1 : ("\n" : String).data.count '\n' = 1 := by decide
      rw [h1]
      simp only [List.length_cons]
      omega

theorem natRepr_digitChar_ne (n : Nat) : Nat.digitChar n ≠ '\n' := by
  unfold Nat.digitChar
  intro h
  by_cases h0 : n = 0
  · rw [if_pos h0] at h; exact absurd h (by decide)
  rw [if_neg h0] at h
  by_cases h1 : n = 1
  · rw [if_pos h1] at h; exact absurd h (by decide)
  rw [if_neg h1] at h
  by_cases h2 : n = 2
  · rw [if_pos h2] at h; exact absurd h (by decide)
  rw [if_neg h2] at h
  by_cases h3 : n = 3
  · rw [if_pos h3] at h; exact absurd h (by decide)
  rw [if_neg h3] at h
  by_cases h4 : n = 4
  · rw [if_pos h4] at h; exact absurd h (by decide)
  rw [if_neg h4] at h
  by_cases h5 : n = 5
  · rw [if_pos h5] at h; exact absurd h (by decide)
  rw [if_neg h5] at h
  by_cases h6 : n = 6
  · rw [if_pos h6] at h; exact absurd h (by decide)
  rw [if_neg h6] at h
  by_cases h7 : n = 7
  · rw [if_pos h7] at h; exact absurd h (by decide)
  rw [if_neg h7] at h
  by_cases h8 : n = 8
  · rw [if_pos h8] at h; exact absurd h (by decide)
  rw [if_neg h8] at h
  by_cases h9 : n = 9
  · rw [if_pos h9] at h; exact absurd h (by decide)
  rw [if_neg h9] at h
  by_cases h10 : n = 10
  · rw [if_pos h10] at h; exact absurd h (by decide)
  rw [if_neg h10] at h
  by_cases h11 : n = 11
  · rw [if_pos h11] at h; exact absurd h (by decide)
  rw [if_neg h11] at h
  by_cases h12 : n = 12
  · rw [if_pos h12] at h; exact absurd h (by decide)
  rw [if_neg h12] at h
  by_cases h13 : n = 13
  · rw [if_pos h13] at h; exact absurd h (by decide)
  rw [if_neg h13] at h
  by_cases h14 : n = 14
  · rw [if_pos h14] at h; exact absurd h (by decide)
  rw [if_neg h14] at h
  by_cases h15 : n = 15
  · rw [if_pos h15] at h; exact absurd h (by decide)
  rw [if_neg h15] at h
  exact absurd h (by decide)

theorem toDigitsCore_no_newline (b : Nat) :
    ∀ fuel n acc, (∀ c ∈ acc, c ≠ '\n') → ∀ c ∈ Nat.toDigitsCore b fuel n acc, c ≠ '\n' := by
  intro fuel
  induction fuel with
  | zero =>
    intro n acc hacc c hc
    exact hacc c hc
  | succ fuel ih =>
    intro n acc hacc c hc
    simp only [Nat.toDigitsCore] at hc
    split at hc
    · rcases List.mem_cons.mp hc with hc | hc
      · subst hc
        exact natRepr_digitChar_ne _
      · exact hacc c hc
    · refine ih _ _ ?_ c hc
      intro c' hc'
      rcases List.mem_cons.mp hc' with hc' | hc'
      · subst hc'
        exact natRepr_digitChar_ne _
      · exact hacc c' hc'

theorem natRepr_noNewline (n : Nat) : noNewline (Nat.repr n) = true := by
  unfold noNewline
  rw [List.all_eq_true]
  intro c hc
  simp only [bne_iff_ne, ne_eq]
  have : c ∈ Nat.toDigits 10 n := by
    simpa [Nat.repr, List.asString] using hc
  exact toDigitsCore_no_newline 10 (n + 1) n [] (by simp) c this

/-- Line count of `"== path (hunk +n)\n" ++ lines.join("\n")`, optionally
with the truncation suffix. -/
theorem countLines_blockText (path : String) (ns : Nat) (lines : List String) (suffix : Bool)
    (hpath : noNewline path = true) (hlines : ∀ l ∈ lines, noNewline l = true) :
    countLines (if suffix
        then ("== " ++ path ++ " (hunk +" ++ Nat.repr ns ++ ")\n" ++ jsJoin "\n" lines)
          ++ "\n... (truncated)"
        else "== " ++ path ++ " (hunk +" ++ Nat.repr ns ++ ")\n" ++ jsJoin "\n" lines)
      = 2 + (lines.length - 1) + (if suffix then 1 else 0) := by
  have hhead : ("== " ++ path ++ " (hunk +" ++ Nat.repr ns ++ ")\n").data.count '\n' = 1 := by
    simp only [String.data_append, List.count_append]
    rw [count_newline_of_noNewline hpath, count_newline_of_noNewline (natRepr_noNewline ns)]
    decide
  have hjoin := count_join_newline lines hlines
  cases suffix with
  | false =>
    simp only [Bool.false_eq_true, if_false]
    rw [countLines_eq_count, String.data_append, List.count_append, hhead, hjoin]
    omega
  | true =>
    simp only [if_true]
    rw [countLines_eq_count, String.data_append, String.data_append, List.count_append,
      List.count_append, hhead, hjoin]
    have hsuf : ("\n... (truncated)" : String).data.count '\n' = 1 := by decide
    rw [hsuf]
    omega

/-! ## The rendered hunk block and the step characterization -/

/-- The text block emitted for one hunk, given the `shownLines` value at
entry (mirrors the body of the hunk loop). -/
def hunkBlock (opts : RenderOptions) (file : DiffFile) (hunk : DiffHunk) (shown : Nat) : String :=
  if (file.headerLines ++ hunk.lines).length > opts.maxLines - shown then
    ("== " ++ file.path ++ " (hunk +" ++ Nat.repr hunk.newStart ++ ")\n"
      ++ jsJoin "\n" ((file.headerLines ++ hunk.lines).take (opts.maxLines - shown - 1)))
      ++ "\n... (truncated)"
  else
    "== " ++ file.path ++ " (hunk +" ++ Nat.repr hunk.newStart ++ ")\n"
      ++ jsJoin "\n" (file.headerLines ++ hunk.lines)

/-- With no PR link, one hunk-loop iteration appends exactly the hunk
block to `blocks` and counts its lines. -/
theorem renderHunkStep_blocks (hashHex : String → String) (opts : RenderOptions)
    (file : DiffFile) (hunk : DiffHunk) (acc : HunkLoopAcc) (hpr : opts.prUrl = none) :
    (renderHunkStep hashHex opts file hunk acc).st.blocks
      = acc.st.blocks ++ [hunkBlock opts file hunk acc.st.shownLines] := by
  simp only [renderHunkStep]
  rw [hpr]
  unfold hunkBlock
  repeat' split
  all_goals simp_all

theorem renderHunkStep_shownLines (hashHex : String → String) (opts : RenderOptions)
    (file : DiffFile) (hunk : DiffHunk) (acc : HunkLoopAcc) (hpr : opts.prUrl = none) :
    (renderHunkStep hashHex opts file hunk acc).st.shownLines
      = acc.st.shownLines + countLines (hunkBlock opts file hunk acc.st.shownLines) := by
  simp only [renderHunkStep]
  rw [hpr]
  unfold hunkBlock
  repeat' split
  all_goals simp_all

theorem renderHunkStep_shownHunks (hashHex : String → String) (opts : RenderOptions)
    (file : DiffFile) (hunk : DiffHunk) (acc : HunkLoopAcc) :
    (renderHunkStep hashHex opts file hunk acc).st.shownHunks = acc.st.shownHunks + 1 := by
  simp only [renderHunkStep]
  repeat' split
  all_goals simp

theorem renderHunkStep_shownFiles (hashHex : String → String) (opts : RenderOptions)
    (file : DiffFile) (hunk : DiffHunk) (acc : HunkLoopAcc) :
    (renderHunkStep hashHex opts file hunk acc).st.shownFiles = acc.st.shownFiles := by
  simp only [renderHunkStep]
  repeat' split
  all_goals simp

theorem renderHunkStep_suggestedRanges (hashHex : String → String) (opts : RenderOptions)
    (file : DiffFile) (hunk : DiffHunk) (acc : HunkLoopAcc) :
    (renderHunkStep hashHex opts file hunk acc).st.suggestedRanges
      = acc.st.suggestedRanges := by
  simp only [renderHunkStep]
  repeat' split
  all_goals simp

theorem renderHunkStep_truncated (hashHex : String → String) (opts : RenderOptions)
    (file : DiffFile) (hunk : DiffHunk) (acc : HunkLoopAcc) :
    (renderHunkStep hashHex opts file hunk acc).st.truncated
      = (acc.st.truncated
          || decide ((file.headerLines ++ hunk.lines).length
                > opts.maxLines - acc.st.shownLines)) := by
  simp only [renderHunkStep]
  repeat' split
  all_goals simp_all

theorem renderHunkStep_fileShown (hashHex : String → String) (opts : RenderOptions)
    (file : DiffFile) (hunk : DiffHunk) (acc : HunkLoopAcc) :
    (renderHunkStep hashHex opts file hunk acc).fileShown = true := by
  simp only [renderHunkStep]

/-- Structural well-formedness used by the renderer bounds. -/
def CleanFile (f : DiffFile) : Prop :=
  noNewline f.path = true ∧ (∀ l ∈ f.headerLines, noNewline l = true) ∧
    ∀ h ∈ f.hunks, ∀ l ∈ h.lines, noNewline l = true

/-- `Nat` bound on one hunk block: entered below the budget, the block can
overshoot by at most two lines (one for the uncounted `== path` line, one
more when the remaining budget was exactly one). -/
theorem countLines_hunkBlock_le (opts : RenderOptions) (file : DiffFile) (hunk : DiffHunk)
    (shown : Nat)
    (hpath : noNewline file.path = true)
    (hhdr : ∀ l ∈ file.headerLines, noNewline l = true)
    (hlines : ∀ l ∈ hunk.lines, noNewline l = true)
    (hlt : shown < opts.maxLines) :
    shown + countLines (hunkBlock opts file hunk shown) ≤ opts.maxLines + 2 := by
  have hfull : ∀ l ∈ file.headerLines ++ hunk.lines, noNewline l = true := by
    intro l hl
    rcases List.mem_append.mp hl with h | h
    · exact hhdr l h
    · exact hlines l h
  unfold hunkBlock
  by_cases hsl : (file.headerLines ++ hunk.lines).length > opts.maxLines - shown
  · rw [if_pos hsl]
    have hcount := countLines_blockText file.path hunk.newStart
      ((file.headerLines ++ hunk.lines).take (opts.maxLines - shown - 1)) true hpath
      (fun l hl => hfull l (List.mem_of_mem_take hl))
    simp only [if_true] at hcount
    rw [hcount, List.length_take]
    omega
  · rw [if_neg hsl]
    have hcount := countLines_blockText file.path hunk.newStart
      (file.headerLines ++ hunk.lines) false hpath hfull
    simp only [Bool.false_eq_true, if_false] at hcount
    rw [hcount]
    omega

/-- The truncation flag is monotone along the hunk loop. -/
theorem renderHunksLoop_truncated_mono (hashHex : String → String) (opts : RenderOptions)
    (file : DiffFile) :
    ∀ (hunks : List DiffHunk) (acc : HunkLoopAcc), acc.st.truncated = true →
      (renderHunksLoop hashHex opts file hunks acc).st.truncated = true := by
  intro hunks
  induction hunks with
  | nil => intro acc h; exact h
  | cons hunk rest ih =>
    intro acc h
    unfold renderHunksLoop
    split
    · exact rfl
    · refine ih _ ?_
      rw [renderHunkStep_truncated, h]
      rfl

/-- The hunk loop keeps `shownLines` within `maxLines + 2`. -/
theorem renderHunksLoop_shownLines_le (hashHex : String → String) (opts : RenderOptions)
    (file : DiffFile) (hpr : opts.prUrl = none)
    (hpath : noNewline file.path = true)
    (hhdr : ∀ l ∈ file.headerLines, noNewline l = true) :
    ∀ (hunks : List DiffHunk), (∀ hk ∈ hunks, ∀ l ∈ hk.lines, noNewline l = true) →
      ∀ acc : HunkLoopAcc, acc.st.shownLines ≤ opts.maxLines + 2 →
        (renderHunksLoop hashHex opts file hunks acc).st.shownLines ≤ opts.maxLines + 2 := by
  intro hunks
  induction hunks with
  | nil => intro _ acc hle; exact hle
  | cons hunk rest ih =>
    intro hwf acc hle
    unfold renderHunksLoop
    split
    · exact hle
    · rename_i hguard
      push_neg at hguard
      refine ih (fun hk hhk => hwf hk (List.mem_cons_of_mem _ hhk)) _ ?_
      rw [renderHunkStep_shownLines hashHex opts file hunk acc hpr]
      exact countLines_hunkBlock_le opts file hunk acc.st.shownLines hpath hhdr
        (hwf hunk (List.mem_cons_self _ _)) hguard.2

/-- `renderFile` on a file with hunks: the visible counters other than
`shownFiles` come from the hunk loop. -/
theorem renderFile_st (hashHex : String → String) (opts : RenderOptions) (s : RenderState)
    (file : DiffFile) (hne : file.hunks.isEmpty = false) :
    (renderFile hashHex opts s file).shownLines
        = (renderHunksLoop hashHex opts file file.hunks
            { st := s, fileShown := false, diffStarted := false,
              prettyHeaderAdded := false }).st.shownLines
      ∧ (renderFile hashHex opts s file).truncated
        = (renderHunksLoop hashHex opts file file.hunks
            { st := s, fileShown := false, diffStarted := false,
              prettyHeaderAdded := false }).st.truncated := by
  unfold renderFile
  rw [hne]
  simp only [Bool.false_eq_true, if_false]
  constructor
  · repeat' split
    all_goals simp
  · repeat' split
    all_goals simp

/-- The truncation flag is monotone through `renderFile`. -/
theorem renderFile_truncated_mono (hashHex : String → String) (opts : RenderOptions)
    (s : RenderState) (file : DiffFile) (h : s.truncated = true) :
    (renderFile hashHex opts s file).truncated = true := by
  unfold renderFile
  by_cases hne : file.hunks.isEmpty = true
  · rw [hne]
    simp only [if_true]
    repeat' split
    all_goals simp [h]
  · rw [Bool.eq_false_iff.mpr hne]
    simp only [Bool.false_eq_true, if_false]
    have hmono := renderHunksLoop_truncated_mono hashHex opts file file.hunks
      { st := s, fileShown := false, diffStarted := false, prettyHeaderAdded := false } h
    repeat' split
    all_goals simp_all

/-- The file loop keeps `shownLines` within `maxLines + 2` for inputs
whose files all have hunks and newline-free components. -/
theorem renderFilesLoop_shownLines_le (hashHex : String → String) (opts : RenderOptions)
    (hpr : opts.prUrl = none) :
    ∀ (files : List DiffFile),
      (∀ f ∈ files, CleanFile f ∧ f.hunks ≠ []) →
      ∀ s : RenderState, s.shownLines ≤ opts.maxLines + 2 →
        (renderFilesLoop hashHex opts files s).shownLines ≤ opts.maxLines + 2 := by
  intro files
  induction files with
  | nil => intro _ s hle; exact hle
  | cons file rest ih =>
    intro hwf s hle
    unfold renderFilesLoop
    split
    · exact hle
    · rename_i hguard
      push_neg at hguard
      obtain ⟨⟨hcpath, hchdr, hchunks⟩, hfne⟩ := hwf file (List.mem_cons_self _ _)
      have hne : file.hunks.isEmpty = false := by
        cases hh : file.hunks with
        | nil => exact absurd hh hfne
        | cons a as => rfl
      refine ih (fun f hf => hwf f (List.mem_cons_of_mem _ hf)) _ ?_
      rw [(renderFile_st hashHex opts s file hne).1]
      exact renderHunksLoop_shownLines_le hashHex opts file hpr hcpath hchdr
        file.hunks hchunks _ (le_of_lt (Nat.lt_of_lt_of_le hguard.2 (by omega)))

/-- A hunk step that does not truncate under the smaller line budget is
insensitive to enlarging the budget. -/
theorem renderHunkStep_sim (hashHex : String → String) (pr : Option String)
    (m1 m2 mh1 mh2 : Nat) (file : DiffFile) (hunk : DiffHunk) (acc : HunkLoopAcc)
    (h12 : m1 ≤ m2)
    (hnt : (renderHunkStep hashHex ⟨pr, m1, mh1⟩ file hunk acc).st.truncated = false) :
    renderHunkStep hashHex ⟨pr, m2, mh2⟩ file hunk acc
      = renderHunkStep hashHex ⟨pr, m1, mh1⟩ file hunk acc := by
  rw [renderHunkStep_truncated, Bool.or_eq_false_iff] at hnt
  have hle : ¬((file.headerLines ++ hunk.lines).length > m1 - acc.st.shownLines) := by
    have h2 := hnt.2
    simpa using h2
  have hle2 : ¬((file.headerLines ++ hunk.lines).length > m2 - acc.st.shownLines) := by
    have hsub : m1 - acc.st.shownLines ≤ m2 - acc.st.shownLines :=
      Nat.sub_le_sub_right h12 _
    omega
  simp only [renderHunkStep]
  rw [if_neg hle2, if_neg hle]

/-- A hunk loop that does not truncate under the smaller line budget is
insensitive to enlarging the budget. -/
theorem renderHunksLoop_sim (hashHex : String → String) (pr : Option String)
    (m1 m2 mh : Nat) (file : DiffFile) (h12 : m1 ≤ m2) :
    ∀ (hunks : List DiffHunk) (acc : HunkLoopAcc),
      (renderHunksLoop hashHex ⟨pr, m1, mh⟩ file hunks acc).st.truncated = false →
      renderHunksLoop hashHex ⟨pr, m2, mh⟩ file hunks acc
        = renderHunksLoop hashHex ⟨pr, m1, mh⟩ file hunks acc := by
  intro hunks
  induction hunks with
  | nil => intro acc _; rfl
  | cons hunk rest ih =>
    intro acc hnt
    by_cases hg : acc.st.shownHunks ≥ mh ∨ acc.st.shownLines ≥ m1
    · exfalso
      have htr : (renderHunksLoop hashHex (⟨pr, m1, mh⟩ : RenderOptions) file
          (hunk :: rest) acc).st.truncated = true := by
        simp only [renderHunksLoop]
        rw [if_pos hg]
      rw [htr] at hnt
      exact Bool.noConfusion hnt
    · have hg2 : ¬(acc.st.shownHunks ≥ mh ∨ acc.st.shownLines ≥ m2) := by
        push_neg at hg ⊢
        exact ⟨hg.1, lt_of_lt_of_le hg.2 h12⟩
      have hrest : (renderHunksLoop hashHex (⟨pr, m1, mh⟩ : RenderOptions) file rest
          (renderHunkStep hashHex ⟨pr, m1, mh⟩ file hunk acc)).st.truncated = false := by
        have h1 := hnt
        simp only [renderHunksLoop] at h1
        rw [if_neg hg] at h1
        exact h1
      have hstep : (renderHunkStep hashHex (⟨pr, m1, mh⟩ : RenderOptions) file hunk
          acc).st.truncated = false := by
        cases hb : (renderHunkStep hashHex (⟨pr, m1, mh⟩ : RenderOptions) file hunk
            acc).st.truncated with
        | false => rfl
        | true =>
          exfalso
          have hmono := renderHunksLoop_truncated_mono hashHex ⟨pr, m1, mh⟩ file rest
            (renderHunkStep hashHex ⟨pr, m1, mh⟩ file hunk acc) hb
          rw [hmono] at hrest
          exact Bool.noConfusion hrest
      calc renderHunksLoop hashHex ⟨pr, m2, mh⟩ file (hunk :: rest) acc
          = renderHunksLoop hashHex ⟨pr, m2, mh⟩ file rest
              (renderHunkStep hashHex ⟨pr, m2, mh⟩ file hunk acc) := by
            simp only [renderHunksLoop]
            rw [if_neg hg2]
        _ = renderHunksLoop hashHex ⟨pr, m2, mh⟩ file rest
              (renderHunkStep hashHex ⟨pr, m1, mh⟩ file hunk acc) := by
            rw [renderHunkStep_sim hashHex pr m1 m2 mh mh file hunk acc h12 hstep]
        _ = renderHunksLoop hashHex ⟨pr, m1, mh⟩ file rest
              (renderHunkStep hashHex ⟨pr, m1, mh⟩ file hunk acc) := ih _ hrest
        _ = renderHunksLoop hashHex ⟨pr, m1, mh⟩ file (hunk :: rest) acc := by
            simp only [renderHunksLoop]
            rw [if_neg hg]

/-- A file render that does not truncate under the smaller line budget is
insensitive to enlarging the budget. -/
theorem renderFile_sim (hashHex : String → String) (pr : Option String) (m1 m2 mh : Nat)
    (s : RenderState) (file : DiffFile) (h12 : m1 ≤ m2)
    (hnt : (renderFile hashHex ⟨pr, m1, mh⟩ s file).truncated = false) :
    renderFile hashHex ⟨pr, m2, mh⟩ s file = renderFile hashHex ⟨pr, m1, mh⟩ s file := by
  by_cases hne : file.hunks.isEmpty = true
  · simp only [renderFile, hne, eq_self_iff_true, if_true]
  · have hne' : file.hunks.isEmpty = false := Bool.eq_false_iff.mpr hne
    have hloop : (renderHunksLoop hashHex (⟨pr, m1, mh⟩ : RenderOptions) file file.hunks
        { st := s, fileShown := false, diffStarted := false,
          prettyHeaderAdded := false }).st.truncated = false := by
      rw [← (renderFile_st hashHex ⟨pr, m1, mh⟩ s file hne').2]
      exact hnt
    have hsim := renderHunksLoop_sim hashHex pr m1 m2 mh file h12 file.hunks
      { st := s, fileShown := false, diffStarted := false, prettyHeaderAdded := false } hloop
    have hcond : ¬((renderHunksLoop hashHex (⟨pr, m1, mh⟩ : RenderOptions) file file.hunks
        { st := s, fileShown := false, diffStarted := false,
          prettyHeaderAdded := false }).st.truncated = true ∧ isNewFileDiff file = true) := by
      intro hc
      rw [hloop] at hc
      exact Bool.noConfusion hc.1
    simp only [renderFile, hne', Bool.false_eq_true, if_false]
    rw [hsim]
    rw [if_neg hcond, if_neg hcond]

/-- The truncation flag is monotone along the file loop. -/
theorem renderFilesLoop_truncated_mono (hashHex : String → String) (opts : RenderOptions) :
    ∀ (files : List DiffFile) (s : RenderState), s.truncated = true →
      (renderFilesLoop hashHex opts files s).truncated = true := by
  intro files
  induction files with
  | nil => intro s h; exact h
  | cons file rest ih =>
    intro s h
    unfold renderFilesLoop
    split
    · exact rfl
    · exact ih _ (renderFile_truncated_mono hashHex opts s file h)

/-- A file loop that does not truncate under the smaller line budget is
insensitive to enlarging the budget. -/
theorem renderFilesLoop_sim (hashHex : String → String) (pr : Option String)
    (m1 m2 mh : Nat) (h12 : m1 ≤ m2) :
    ∀ (files : List DiffFile) (s : RenderState),
      (renderFilesLoop hashHex ⟨pr, m1, mh⟩ files s).truncated = false →
      renderFilesLoop hashHex ⟨pr, m2, mh⟩ files s
        = renderFilesLoop hashHex ⟨pr, m1, mh⟩ files s := by
  intro files
  induction files with
  | nil => intro s _; rfl
  | cons file rest ih =>
    intro s hnt
    by_cases hg : s.shownHunks ≥ mh ∨ s.shownLines ≥ m1
    · exfalso
      have htr : (renderFilesLoop hashHex (⟨pr, m1, mh⟩ : RenderOptions)
          (file :: rest) s).truncated = true := by
        simp only [renderFilesLoop]
        rw [if_pos hg]
      rw [htr] at hnt
      exact Bool.noConfusion hnt
    · have hg2 : ¬(s.shownHunks ≥ mh ∨ s.shownLines ≥ m2) := by
        push_neg at hg ⊢
        exact ⟨hg.1, lt_of_lt_of_le hg.2 h12⟩
      have hrest : (renderFilesLoop hashHex (⟨pr, m1, mh⟩ : RenderOptions) rest
          (renderFile hashHex ⟨pr, m1, mh⟩ s file)).truncated = false := by
        have h1 := hnt
        simp only [renderFilesLoop] at h1
        rw [if_neg hg] at h1
        exact h1
      have hfile : (renderFile hashHex (⟨pr, m1, mh⟩ : RenderOptions) s
          file).truncated = false := by
        cases hb : (renderFile hashHex (⟨pr, m1, mh⟩ : RenderOptions) s file).truncated with
        | false => rfl
        | true =>
          exfalso
          have hmono := renderFilesLoop_truncated_mono hashHex ⟨pr, m1, mh⟩ rest
            (renderFile hashHex ⟨pr, m1, mh⟩ s file) hb
          rw [hmono] at hrest
          exact Bool.noConfusion hrest
      calc renderFilesLoop hashHex ⟨pr, m2, mh⟩ (file :: rest) s
          = renderFilesLoop hashHex ⟨pr, m2, mh⟩ rest
              (renderFile hashHex ⟨pr, m2, mh⟩ s file) := by
            simp only [renderFilesLoop]
            rw [if_neg hg2]
        _ = renderFilesLoop hashHex ⟨pr, m2, mh⟩ rest
              (renderFile hashHex ⟨pr, m1, mh⟩ s file) := by
            rw [renderFile_sim hashHex pr m1 m2 mh s file h12 hfile]
        _ = renderFilesLoop hashHex ⟨pr, m1, mh⟩ rest
              (renderFile hashHex ⟨pr, m1, mh⟩ s file) := ih _ hrest
        _ = renderFilesLoop hashHex ⟨pr, m1, mh⟩ (file :: rest) s := by
            simp only [renderFilesLoop]
            rw [if_neg hg]

/-- On a nonempty file list the `info` record of `formatDiffOutput` is the
final state of the file loop. -/
theorem formatDiffOutput_info (hashHex : String → String) (files : List DiffFile)
    (opts : RenderOptions) (hne : files.isEmpty = false) :
    (formatDiffOutput hashHex files opts).info
      = { shownFiles := (renderFilesLoop hashHex opts files {}).shownFiles,
          shownHunks := (renderFilesLoop hashHex opts files {}).shownHunks,
          shownLines := (renderFilesLoop hashHex opts files {}).shownLines,
          truncated := (renderFilesLoop hashHex opts files {}).truncated,
          suggestedRanges := (renderFilesLoop hashHex opts files {}).suggestedRanges } := by
  simp only [formatDiffOutput, hne, Bool.false_eq_true, if_false]

/-- A successful `(.+?) b\/(.+)$` tail search only yields dot characters
(in particular, no newline). -/
theorem gitHeaderTailSearch_all (cs : List Char) :
    ∀ tl, gitHeaderTailSearch cs = some tl → tl.all jsDotChar = true := by
  induction cs with
  | nil => intro tl h; exact absurd h (by simp [gitHeaderTailSearch])
  | cons c rest ih =>
    intro tl h
    simp only [gitHeaderTailSearch] at h
    split at h
    · split at h
      · rename_i hcond
        cases h
        simp only [Bool.and_eq_true] at hcond
        exact hcond.2
      · exact ih _ h
    · split at h
      · exact ih _ h
      · exact absurd h (by simp)

/-- Replacing the first occurrence of a pattern by the empty string only
keeps characters of the original string. -/
theorem replaceFirstList_nil_subset (pat : List Char) :
    ∀ cs c, c ∈ replaceFirstList pat [] cs → c ∈ cs := by
  intro cs
  induction cs with
  | nil =>
    intro c hc
    simp only [replaceFirstList] at hc
    split at hc <;> simp_all
  | cons a as ih =>
    intro c hc
    simp only [replaceFirstList] at hc
    split at hc
    · rw [List.nil_append] at hc
      exact List.mem_of_mem_drop hc
    · rcases List.mem_cons.mp hc with h | h
      · exact h ▸ List.mem_cons_self _ _
      · exact List.mem_cons_of_mem _ (ih c h)

/-- The parsed path of a newline-free header line is newline-free. -/
theorem parsedFilePath_noNewline (line : String) (h : noNewline line = true) :
    noNewline (parsedFilePath line) = true := by
  unfold parsedFilePath
  cases hg : gitHeaderPath line with
  | none =>
    simp only [noNewline, jsReplaceFirst, List.all_eq_true]
    intro c hc
    have hmem : c ∈ line.data := replaceFirstList_nil_subset _ line.data c hc
    simp only [noNewline, List.all_eq_true] at h
    exact h c hmem
  | some p =>
    simp only
    unfold gitHeaderPath at hg
    split at hg
    · split at hg
      · exact absurd hg (by simp)
      · split at hg
        · rw [Option.map_eq_some'] at hg
          obtain ⟨tl, htl, rfl⟩ := hg
          have hall := gitHeaderTailSearch_all _ tl htl
          simp only [noNewline, List.all_eq_true] at hall ⊢
          intro c hc
          have hd := hall c hc
          simp only [jsDotChar, Bool.and_eq_true] at hd
          exact hd.1.1.1
        · exact absurd hg (by simp)
    · exact absurd hg (by simp)

/-- Cleanliness of the parser cursor. -/
def CleanCur (cf : CurFile) : Prop :=
  noNewline cf.path = true ∧ (∀ l ∈ cf.headerLines, noNewline l = true) ∧
    (∀ h ∈ cf.hunks, ∀ l ∈ h.lines, noNewline l = true) ∧
    (∀ h, cf.curHunk = some h → ∀ l ∈ h.lines, noNewline l = true)

theorem closeFile_clean (cf : CurFile) (h : CleanCur cf) : CleanFile (closeFile cf) := by
  obtain ⟨h1, h2, h3, h4⟩ := h
  refine ⟨h1, h2, ?_⟩
  intro hk hmem l hl
  simp only [closeFile] at hmem
  rcases List.mem_append.mp hmem with hm | hm
  · exact h3 hk hm l hl
  · split at hm
    · rename_i hh heq
      rw [List.mem_singleton] at hm
      subst hm
      exact h4 hk heq l hl
    · exact absurd hm (List.not_mem_nil _)

/-- Closing the cursor into the file list preserves cleanliness. -/
theorem files_close_clean (files : List DiffFile) (cur : Option CurFile) :
    (∀ f ∈ files, CleanFile f) → (∀ cf, cur = some cf → CleanCur cf) →
    ∀ f ∈ files ++ (match cur with | some cf => [closeFile cf] | none => []),
      CleanFile f := by
  intro hfiles hcur f hf
  cases cur with
  | none =>
    exact hfiles f (by simpa using hf)
  | some cf =>
    rcases List.mem_append.mp hf with hm | hm
    · exact hfiles f hm
    · rw [List.mem_singleton] at hm
      subst hm
      exact closeFile_clean cf (hcur cf rfl)

/-- Every file produced by the line scan from newline-free input lines and
a clean accumulator is clean. -/
theorem parseStep_clean :
    ∀ (lines : List String) (files : List DiffFile) (cur : Option CurFile),
      (∀ l ∈ lines, noNewline l = true) →
      (∀ f ∈ files, CleanFile f) →
      (∀ cf, cur = some cf → CleanCur cf) →
      ∀ f ∈ parseStep lines files cur, CleanFile f := by
  intro lines
  induction lines with
  | nil =>
    intro files cur _ hfiles hcur f hf
    simp only [parseStep] at hf
    exact files_close_clean files cur hfiles hcur f hf
  | cons line rest ih =>
    intro files cur hlines hfiles hcur f hf
    have hline : noNewline line = true := hlines line (List.mem_cons_self _ _)
    have hrest : ∀ l ∈ rest, noNewline l = true :=
      fun l hl => hlines l (List.mem_cons_of_mem _ hl)
    have hnewcur : ∀ cf', some
        ({ path := parsedFilePath line, headerLines := [line], hunks := [],
           curHunk := none } : CurFile) = some cf' → CleanCur cf' := by
      intro cf' heq
      have heq' := Option.some.inj heq
      subst heq'
      refine ⟨parsedFilePath_noNewline line hline, ?_, ?_, ?_⟩
      · intro l hl
        rw [List.mem_singleton] at hl
        subst hl
        exact hline
      · intro hk hm
        exact absurd hm (List.not_mem_nil _)
      · intro hk heq2
        exact absurd heq2 (by simp)
    cases cur with
    | none =>
      simp only [parseStep] at hf
      split at hf
      · exact ih _ _ hrest
          (files_close_clean files none hfiles (fun cf heq => Option.noConfusion heq))
          hnewcur f hf
      · exact ih _ _ hrest hfiles (fun cf heq => Option.noConfusion heq) f hf
    | some cf =>
      have hcf : CleanCur cf := hcur cf rfl
      simp only [parseStep] at hf
      split at hf
      · exact ih _ _ hrest
          (files_close_clean files (some cf) hfiles (fun cf' heq =>
            (Option.some.inj heq) ▸ hcf))
          hnewcur f hf
      · split at hf
        · refine ih _ _ hrest hfiles ?_ f hf
          intro cf' heq'
          have heq'' := Option.some.inj heq'
          subst heq''
          obtain ⟨h1, h2, h3, h4⟩ := hcf
          refine ⟨h1, h2, ?_, ?_⟩
          · intro hk hm l hl
            rcases List.mem_append.mp hm with hm2 | hm2
            · exact h3 hk hm2 l hl
            · split at hm2
              · rename_i hh heqh
                rw [List.mem_singleton] at hm2
                subst hm2
                exact h4 hk heqh l hl
              · exact absurd hm2 (List.not_mem_nil _)
          · intro hk heqk
            have h5 := Option.some.inj heqk
            subst h5
            intro l hl
            rw [List.mem_singleton] at hl
            subst hl
            exact hline
        · split at hf
          · rename_i h heqh
            refine ih _ _ hrest hfiles ?_ f hf
            intro cf' heq'
            have h6 := Option.some.inj heq'
            subst h6
            obtain ⟨h1, h2, h3, h4⟩ := hcf
            refine ⟨h1, h2, h3, ?_⟩
            intro hk heqk
            have h7 := Option.some.inj heqk
            subst h7
            intro l hl
            rcases List.mem_append.mp hl with hl2 | hl2
            · exact h4 h heqh l hl2
            · rw [List.mem_singleton] at hl2
              subst hl2
              exact hline
          · refine ih _ _ hrest hfiles ?_ f hf
            intro cf' heq'
            have h6 := Option.some.inj heq'
            subst h6
            obtain ⟨h1, h2, h3, h4⟩ := hcf
            refine ⟨h1, ?_, h3, h4⟩
            intro l hl
            rcases List.mem_append.mp hl with hl2 | hl2
            · exact h2 l hl2
            · rw [List.mem_singleton] at hl2
              subst hl2
              exact hline

/-- Every file produced by `parseUnifiedDiff` has a newline-free path,
newline-free header lines, and newline-free hunk lines. -/
theorem parseUnifiedDiff_clean (d : String) : ∀ f ∈ parseUnifiedDiff d, CleanFile f :=
  parseStep_clean (splitLines d) [] none (splitLines_no_newline d)
    (fun f hf => absurd hf (List.not_mem_nil f))
    (fun _ heq => Option.noConfusion heq)

/-- A parsed diff with one hunk of seventeen context lines: nineteen full
lines, rendered as twenty output lines when the budget is large. -/
def c1diff : String :=
  "diff --git a/f b/f\n@@ -1,17 +1,17 @@\n c1\n c2\n c3\n c4\n c5\n c6\n c7\n c8\n c9\n c10\n c11\n c12\n c13\n c14\n c15\n c16\n c17"

/-- C1 counterexample: a parsed diff whose rendering under a huge budget
produces exactly 20 output lines renders under maxLines = 10 with
shownLines = 11, violating the claimed bound shownLines <= 10 (the
truncated block still overshoots the budget by one line, since the
`== path` line of a block is not charged before the slice). Truncation is
still flagged. -/
theorem c1_counterexample :
    (formatDiffOutput (fun _ => "") (parseUnifiedDiff c1diff)
        ⟨none, 1000000, 1000000⟩).info.shownLines = 20
    ∧ (formatDiffOutput (fun _ => "") (parseUnifiedDiff c1diff)
        ⟨none, 1000000, 1000000⟩).info.truncated = false
    ∧ (formatDiffOutput (fun _ => "") (parseUnifiedDiff c1diff)
        ⟨none, 10, 1000000⟩).info.shownLines = 11
    ∧ ¬((formatDiffOutput (fun _ => "") (parseUnifiedDiff c1diff)
        ⟨none, 10, 1000000⟩).info.shownLines ≤ 10)
    ∧ (formatDiffOutput (fun _ => "") (parseUnifiedDiff c1diff)
        ⟨none, 10, 1000000⟩).info.truncated = true := by
  decide

/-- C1 (amended): for every parsed diff all of whose files have at least
one hunk, if rendering with an effectively unbounded budget yields 20
output lines, then rendering with maxLines = 10 yields
shownLines <= 12 (not <= 10: the budget can overshoot by up to two
lines), sets truncated = true, and re-running the render on the same
inputs returns an identical result record (text, diffText and info). -/
theorem c1_render_truncation (hashHex : String → String) (d : String)
    (hhunks : ∀ f ∈ parseUnifiedDiff d, f.hunks ≠ [])
    (h20 : (formatDiffOutput hashHex (parseUnifiedDiff d)
        ⟨none, 1000000, 1000000⟩).info.shownLines = 20) :
    (formatDiffOutput hashHex (parseUnifiedDiff d)
        ⟨none, 10, 1000000⟩).info.shownLines ≤ 12
    ∧ (formatDiffOutput hashHex (parseUnifiedDiff d)
        ⟨none, 10, 1000000⟩).info.truncated = true
    ∧ formatDiffOutput hashHex (parseUnifiedDiff d) ⟨none, 10, 1000000⟩
      = formatDiffOutput hashHex (parseUnifiedDiff d) ⟨none, 10, 1000000⟩ := by
  have hwf : ∀ f ∈ parseUnifiedDiff d, CleanFile f ∧ f.hunks ≠ [] :=
    fun f hf => ⟨parseUnifiedDiff_clean d f hf, hhunks f hf⟩
  have hne : (parseUnifiedDiff d).isEmpty = false := by
    cases hfe : parseUnifiedDiff d with
    | nil =>
      rw [hfe] at h20
      simp [formatDiffOutput] at h20
    | cons a as => rfl
  have hbound := renderFilesLoop_shownLines_le hashHex ⟨none, 10, 1000000⟩ rfl
    (parseUnifiedDiff d) hwf {} (Nat.zero_le _)
  have hbound' : (renderFilesLoop hashHex (⟨none, 10, 1000000⟩ : RenderOptions)
      (parseUnifiedDiff d) {}).shownLines ≤ 12 := hbound
  rw [formatDiffOutput_info hashHex _ _ hne]
  refine ⟨hbound', ?_, rfl⟩
  by_contra hnt
  have hnt' : (renderFilesLoop hashHex (⟨none, 10, 1000000⟩ : RenderOptions)
      (parseUnifiedDiff d) {}).truncated = false := by
    cases hb : (renderFilesLoop hashHex (⟨none, 10, 1000000⟩ : RenderOptions)
        (parseUnifiedDiff d) {}).truncated with
    | false => rfl
    | true => exact absurd hb hnt
  have hsim := renderFilesLoop_sim hashHex none 10 1000000 1000000 (by omega)
    (parseUnifiedDiff d) {} hnt'
  rw [formatDiffOutput_info hashHex _ _ hne, hsim] at h20
  have h20' : (renderFilesLoop hashHex (⟨none, 10, 1000000⟩ : RenderOptions)
      (parseUnifiedDiff d) {}).shownLines = 20 := h20
  omega

/-- C1 witness: the nineteen-line single-hunk diff satisfies both
hypotheses and the amended conclusion. -/
theorem c1_witness :
    (formatDiffOutput (fun _ => "") (parseUnifiedDiff c1diff)
        ⟨none, 10, 1000000⟩).info.shownLines ≤ 12
    ∧ (formatDiffOutput (fun _ => "") (parseUnifiedDiff c1diff)
        ⟨none, 10, 1000000⟩).info.truncated = true
    ∧ formatDiffOutput (fun _ => "") (parseUnifiedDiff c1diff) ⟨none, 10, 1000000⟩
      = formatDiffOutput (fun _ => "") (parseUnifiedDiff c1diff) ⟨none, 10, 1000000⟩ :=
  c1_render_truncation (fun _ => "") c1diff (by decide) (by decide)

/-- A diff whose file carries a recognizable extra header line. -/
def c10diff : String :=
  "diff --git a/f b/f\nHDRMARK3\n@@ -1,2 +1,2 @@\n x\n y"

/-- C10 counterexample: under maxLines = 2 the single hunk is rendered
(shownHunks = 1) but its block is sliced before the file's second header
line, so the rendered text does not contain the complete headerLines of
the enclosing file even though the parse recorded them. -/
theorem c10_counterexample :
    (formatDiffOutput (fun _ => "") (parseUnifiedDiff c10diff)
        ⟨none, 2, 1000000⟩).info.shownHunks = 1
    ∧ (formatDiffOutput (fun _ => "") (parseUnifiedDiff c10diff)
        ⟨none, 2, 1000000⟩).info.truncated = true
    ∧ (parseUnifiedDiff c10diff).map (fun f => f.headerLines)
        = [["diff --git a/f b/f", "HDRMARK3"]]
    ∧ isSubstr "HDRMARK3"
        (formatDiffOutput (fun _ => "") (parseUnifiedDiff c10diff)
          ⟨none, 2, 1000000⟩).text = false := by
  decide

/-- C10 (amended): when a hunk's combined header and content lines fit the
remaining budget (and only then), the hunk-loop iteration appends one block
consisting of the enclosing file's complete headerLines followed by the
hunk's own lines, and charges one line more than their joint count (the
`== path` line) against shownLines. -/
theorem c10_hunk_block_headers (hashHex : String → String) (opts : RenderOptions)
    (file : DiffFile) (hunk : DiffHunk) (acc : HunkLoopAcc)
    (hpr : opts.prUrl = none)
    (hfit : (file.headerLines ++ hunk.lines).length ≤ opts.maxLines - acc.st.shownLines)
    (hpath : noNewline file.path = true)
    (hhdr : ∀ l ∈ file.headerLines, noNewline l = true)
    (hlines : ∀ l ∈ hunk.lines, noNewline l = true)
    (hlen : 1 ≤ (file.headerLines ++ hunk.lines).length) :
    (renderHunkStep hashHex opts file hunk acc).st.blocks
      = acc.st.blocks ++ ["== " ++ file.path ++ " (hunk +" ++ Nat.repr hunk.newStart ++ ")\n"
          ++ jsJoin "\n" (file.headerLines ++ hunk.lines)]
    ∧ (renderHunkStep hashHex opts file hunk acc).st.shownLines
      = acc.st.shownLines + 1 + (file.headerLines ++ hunk.lines).length := by
  have hnot : ¬((file.headerLines ++ hunk.lines).length
      > opts.maxLines - acc.st.shownLines) := not_lt.mpr hfit
  constructor
  · rw [renderHunkStep_blocks hashHex opts file hunk acc hpr]
    unfold hunkBlock
    rw [if_neg hnot]
  · rw [renderHunkStep_shownLines hashHex opts file hunk acc hpr]
    unfold hunkBlock
    rw [if_neg hnot]
    have hfull : ∀ l ∈ file.headerLines ++ hunk.lines, noNewline l = true := by
      intro l hl
      rcases List.mem_append.mp hl with h | h
      · exact hhdr l h
      · exact hlines l h
    have hc := countLines_blockText file.path hunk.newStart
      (file.headerLines ++ hunk.lines) false hpath hfull
    simp only [Bool.false_eq_true, if_false] at hc
    rw [hc]
    omega

/-- Concrete inputs for the C10 witness. -/
def c10file : DiffFile :=
  { path := "f", headerLines := ["diff --git a/f b/f", "HDRMARK3"], hunks := [] }

/-- Concrete hunk for the C10 witness. -/
def c10hunk : DiffHunk :=
  { header := "@@ -1,2 +1,2 @@", lines := ["@@ -1,2 +1,2 @@", " x", " y"],
    oldStart := 1, newStart := 1 }

/-- Concrete accumulator for the C10 witness. -/
def c10acc : HunkLoopAcc :=
  { st := {}, fileShown := false, diffStarted := false, prettyHeaderAdded := false }

/-- C10 witness: a two-header-line file whose hunk fits the budget gets a
block with both header lines prepended and four lines charged. -/
theorem c10_witness :
    (renderHunkStep (fun _ => "") ⟨none, 10, 10⟩ c10file c10hunk c10acc).st.blocks
      = c10acc.st.blocks
        ++ ["== " ++ c10file.path ++ " (hunk +" ++ Nat.repr c10hunk.newStart ++ ")\n"
            ++ jsJoin "\n" (c10file.headerLines ++ c10hunk.lines)]
    ∧ (renderHunkStep (fun _ => "") ⟨none, 10, 10⟩ c10file c10hunk c10acc).st.shownLines
      = c10acc.st.shownLines + 1 + (c10file.headerLines ++ c10hunk.lines).length :=
  c10_hunk_block_headers (fun _ => "") ⟨none, 10, 10⟩ c10file c10hunk c10acc
    rfl (by decide) (by decide) (by decide) (by decide) (by decide)


end AgentDiff
